import Mathlib

/-!
# PowerManager module (flight/modules/PowerManager/powermanager.c)

A shallow embedding of the battery monitor: the voltage conversion
`adcConvertToVoltageFloat`, the bucket lookup `pmBatteryChargeFromVoltage`
over the table `charge_perc`, and the periodic handler `onTimer`.

The C code computes in `float`.  The embedding carries a `float` as an IEEE 754
binary32 value: NaN, an infinity, or a finite value held as the exact rational
it denotes.  Every arithmetic operation computes the exact rational result and
rounds it to binary32 with round-to-nearest, ties-to-even (the default rounding
mode, each operation evaluated in `float` precision).  The sign of a zero is not
tracked: the only zero divisor this module can produce is the conversion of the
integer 0, which is +0.

`F32.fin q` is written for any rational `q`; the binary32 values are those that
`F32.round` returns.  A statement quantified over all of `F32` therefore covers
every `float` the code can be handed, and the concrete inputs used below are
binary32 values.
-/

namespace PowerManager

/-! ## IEEE 754 binary32 -/

/-- A binary32 value: NaN, an infinity, or a finite value given by the rational it denotes. -/
inductive F32 where
  | nan : F32
  | inf (negative : Bool) : F32
  | fin (q : ℚ) : F32
deriving DecidableEq

namespace F32

/-- Nearest integer to `x`, a tie going to the even neighbour. -/
def roundHalfEven (x : ℚ) : ℤ :=
  let f := ⌊x⌋
  let r := x - f
  if r < 1 / 2 then f
  else if 1 / 2 < r then f + 1
  else if f % 2 = 0 then f
  else f + 1

/-- Round an exact rational result to binary32 (24-bit significand, exponents -126..127,
gradual underflow, overflow to infinity), round-to-nearest ties-to-even. -/
def round (q : ℚ) : F32 :=
  if q = 0 then fin 0
  else
    let e : ℤ := max (Int.log 2 |q|) (-126)
    let ulp : ℚ := (2 : ℚ) ^ (e - 23)
    let r : ℚ := (roundHalfEven (|q| / ulp) : ℚ) * ulp
    if (2 : ℚ) ^ (128 : ℕ) ≤ r then inf (decide (q < 0))
    else fin (if q < 0 then -r else r)

/-- Conversion of an unsigned integer to `float`. -/
def ofNat (n : ℕ) : F32 := round (n : ℚ)

/-- The `float` division `a / b`. -/
def div : F32 → F32 → F32
  | nan, nan => nan
  | nan, inf _ => nan
  | nan, fin _ => nan
  | inf _, nan => nan
  | inf _, inf _ => nan
  | inf s, fin b => inf (xor s (decide (b < 0)))
  | fin _, nan => nan
  | fin _, inf _ => fin 0
  | fin a, fin b =>
    if b = 0 then (if a = 0 then nan else inf (decide (a < 0)))
    else round (a / b)

/-- The `float` multiplication `a * b`. -/
def mul : F32 → F32 → F32
  | nan, nan => nan
  | nan, inf _ => nan
  | nan, fin _ => nan
  | inf _, nan => nan
  | inf s, inf t => inf (xor s t)
  | inf s, fin b => if b = 0 then nan else inf (xor s (decide (b < 0)))
  | fin _, nan => nan
  | fin a, inf t => if a = 0 then nan else inf (xor (decide (a < 0)) t)
  | fin a, fin b => round (a * b)

/-- The comparison `a < b` of two floats; false when either is NaN. -/
def lt : F32 → F32 → Bool
  | nan, nan => false
  | nan, inf _ => false
  | nan, fin _ => false
  | inf _, nan => false
  | inf s, inf t => s && !t
  | inf s, fin _ => s
  | fin _, nan => false
  | fin _, inf t => !t
  | fin a, fin b => decide (a < b)

/-- The comparison `a > b` of two floats; false when either is NaN. -/
def gt (a b : F32) : Bool := lt b a

/-- The comparison `a <= b` of two floats; false when either is NaN. -/
def le : F32 → F32 → Bool
  | nan, nan => false
  | nan, inf _ => false
  | nan, fin _ => false
  | inf _, nan => false
  | inf s, inf t => s || !t
  | inf s, fin _ => s
  | fin _, nan => false
  | fin _, inf t => !t
  | fin a, fin b => decide (a ≤ b)

end F32

/-! ## Configuration and table -/

/-- The constant `ADC_INTERNAL_VREF`, the literal `1.20f`. -/
def ADC_INTERNAL_VREF : F32 := F32.round (120 / 100)

/-- The constant `PM_BAT_DIVIDER`, the literal `3.0f`. -/
def PM_BAT_DIVIDER : F32 := F32.round 3

/-- The table `charge_perc[10]` of `float` literals. -/
def charge_perc : List F32 :=
  [ F32.round (300 / 100),  -- 00%
    F32.round (378 / 100),  -- 10%
    F32.round (383 / 100),  -- 20%
    F32.round (387 / 100),  -- 30%
    F32.round (389 / 100),  -- 40%
    F32.round (392 / 100),  -- 50%
    F32.round (396 / 100),  -- 60%
    F32.round (400 / 100),  -- 70%
    F32.round (404 / 100),  -- 80%
    F32.round (410 / 100) ] -- 90%

/-! ## pmBatteryChargeFromVoltage -/

/-- The loop `while (voltage > charge_perc[charge]) charge++;`.  A read of
`charge_perc[charge]` outside the table is undefined behaviour and yields `none`.
Every iteration that continues increments `charge`, so `fuel` bounds the number of
evaluations of the loop condition; `none` is also the result when it runs out. -/
def scanLoop : ℕ → F32 → ℕ → Option ℕ
  | 0, _, _ => none
  | fuel + 1, voltage, charge =>
    match charge_perc[charge]? with
    | none => none
    | some t =>
      if F32.gt voltage t then scanLoop fuel voltage (charge + 1)
      else some charge

/-- Fuel given to the scan: one evaluation of the loop condition per table entry, and one
more, which could only be a read past the end of the table. -/
def scanFuel : ℕ := charge_perc.length + 1

/-- The function `pmBatteryChargeFromVoltage`: the charge bucket of a voltage.  `charge` starts
at 0 and is only incremented, so it is carried as a natural number and returned as `int32_t`. -/
def pmBatteryChargeFromVoltage (voltage : F32) : Option ℤ :=
  match charge_perc[0]?, charge_perc[9]? with
  | some c0, some c9 =>
    if F32.lt voltage c0 then some 0
    else if F32.gt voltage c9 then some 9
    else (scanLoop scanFuel voltage 0).map (fun charge => (charge : ℤ))
  | _, _ => none

/-- The function `adcConvertToVoltageFloat`: `(v / (vref / ADC_INTERNAL_VREF)) * PM_BAT_DIVIDER`,
the `uint16_t` operands converted to `float`. -/
def adcConvertToVoltageFloat (v vref : ℕ) : F32 :=
  F32.mul (F32.div (F32.ofNat v) (F32.div (F32.ofNat vref) ADC_INTERNAL_VREF)) PM_BAT_DIVIDER

/-! ## onTimer -/

/-- Modelled from the spec: the severities of the alarm registry (`SYSTEMALARMS_ALARM_OK`,
`SYSTEMALARMS_ALARM_WARNING`, `SYSTEMALARMS_ALARM_ERROR`); the header declaring them is not
part of the sources. -/
inductive AlarmLevel where
  | OK : AlarmLevel
  | WARNING : AlarmLevel
  | ERROR : AlarmLevel
deriving DecidableEq

/-- Modelled from the spec: the alarm channel written by this module
(`SYSTEMALARMS_ALARM_BATTERY`); the header declaring the channels is not part of the sources. -/
inductive AlarmChannel where
  | BATTERY : AlarmChannel
deriving DecidableEq

/-- Modelled from the spec: the record `FlightBatteryStateData` of `flightbatterystate.h`, which
is not part of the sources.  The spec names the fields `Voltage: float`, `Current: float` and
`EstimatedFlightTime: integer`; every other field of the record is kept in `rest`. -/
structure FlightBatteryStateData (ρ : Type) where
  Voltage : F32
  Current : F32
  EstimatedFlightTime : ℤ
  rest : ρ

/-- What the collaborators hand to one tick: the two values returned by `PIOS_ADC_PinGet`, the
snapshot `FlightBatteryStateGet` copies out of the store, and the code returned by
`PIOS_BQ24075_GetChargingState`. -/
structure TickInputs (ρ : Type) where
  vrefPin : ℕ
  batPin : ℕ
  stored : FlightBatteryStateData ρ
  chargingState : ℕ

/-- What one tick leaves behind: the function-static `flightBatteryData` after the tick, the
arguments of the `FlightBatteryStateSet` calls in order, and the `AlarmsSet` calls in order. -/
structure TickResult (ρ : Type) where
  flightBatteryData : FlightBatteryStateData ρ
  stateSets : List (FlightBatteryStateData ρ)
  alarmSets : List (AlarmChannel × AlarmLevel)

/-- Assignment of a driver value to a `uint16_t` variable. -/
def toUInt16 (n : ℕ) : ℕ := n % 2 ^ 16

/-- The handler `onTimer`.  Its first argument is the function-static `flightBatteryData` as the
previous tick left it (zero-initialised before the first tick).  The result is `none` only if
`pmBatteryChargeFromVoltage` reads outside its table. -/
def onTimer {ρ : Type} (flightBatteryData : FlightBatteryStateData ρ) (inp : TickInputs ρ) :
    Option (TickResult ρ) :=
  let vref_adc := toUInt16 inp.vrefPin
  let bat_adc := toUInt16 inp.batPin
  let voltage := adcConvertToVoltageFloat bat_adc vref_adc
  match pmBatteryChargeFromVoltage flightBatteryData.Voltage with
  | none => none
  | some charge =>
    -- FlightBatteryStateGet(&flightBatteryData)
    let d0 : FlightBatteryStateData ρ := inp.stored
    let d1 : FlightBatteryStateData ρ := { d0 with Voltage := voltage }
    let d2 : FlightBatteryStateData ρ := { d1 with Current := F32.ofNat inp.chargingState }
    let d3 : FlightBatteryStateData ρ := { d2 with EstimatedFlightTime := charge }
    -- FlightBatteryStateSet(&flightBatteryData), then the alarm
    let level : AlarmLevel :=
      if charge = 1 then AlarmLevel.WARNING
      else if charge = 0 then AlarmLevel.ERROR
      else AlarmLevel.OK
    some { flightBatteryData := d3, stateSets := [d3], alarmSets := [(AlarmChannel.BATTERY, level)] }

/-- The function-static `flightBatteryData` before the first tick: C zero-initialises it.  The
fields outside the three this module writes are whatever all-zero bytes denote, `rest0`. -/
def zeroInitialised {ρ : Type} (rest0 : ρ) : FlightBatteryStateData ρ :=
  { Voltage := F32.fin 0, Current := F32.fin 0, EstimatedFlightTime := 0, rest := rest0 }

/-! ## The instrumented scan -/

/-- The loop of `scanLoop` again, recording the index of every read `charge_perc[charge]` the
loop condition performs, in order, beside the final `charge`.  A read outside the table is
recorded and ends the run with `none`. -/
def scanTrace : ℕ → F32 → ℕ → List ℕ × Option ℕ
  | 0, _, _ => ([], none)
  | fuel + 1, voltage, charge =>
    match charge_perc[charge]? with
    | none => ([charge], none)
    | some t =>
      if F32.gt voltage t then
        (charge :: (scanTrace fuel voltage (charge + 1)).1,
          (scanTrace fuel voltage (charge + 1)).2)
      else ([charge], some charge)

/-- The function `pmBatteryChargeFromVoltage` with the reads of its loop recorded: the list is
empty when one of the two range tests returns before the loop is entered. -/
def pmScanReads (fuel : ℕ) (voltage : F32) : List ℕ × Option ℤ :=
  match charge_perc[0]?, charge_perc[9]? with
  | some c0, some c9 =>
    if F32.lt voltage c0 then ([], some 0)
    else if F32.gt voltage c9 then ([], some 9)
    else ((scanTrace fuel voltage 0).1,
      ((scanTrace fuel voltage 0).2).map (fun charge => (charge : ℤ)))
  | _, _ => ([], none)

/-! ## A sequence of ticks -/

/-- Successive ticks: each one starts from the function-static record the previous one left.
The result lists what every tick left behind, in order. -/
def runTicks {ρ : Type} : FlightBatteryStateData ρ → List (TickInputs ρ) →
    Option (List (TickResult ρ))
  | _, [] => some []
  | flightBatteryData, inp :: later =>
    match onTimer flightBatteryData inp with
    | none => none
    | some r =>
      match runTicks r.flightBatteryData later with
      | none => none
      | some rs => some (r :: rs)

/-! ## PowerManagerInitialize and PowerManagerStart -/

/-- The constant `SAMPLE_PERIOD_MS`. -/
def SAMPLE_PERIOD_MS : ℕ := 500

/-- The calls `PowerManagerInitialize` makes to its collaborators. -/
inductive InitCall where
  | FlightBatteryStateInitialize : InitCall
  | EventPeriodicCallbackCreate (periodTicks : ℕ) : InitCall
deriving DecidableEq

/-- What a call of `PowerManagerInitialize` leaves behind: its calls in order and its return
value. -/
structure InitResult where
  calls : List InitCall
  ret : ℤ
deriving DecidableEq

/-- The function `PowerManagerInitialize`.  `portTICK_RATE_MS` is a constant of the RTOS port
that is not part of the sources (a zero would make the division undefined: `none`).  The other
two arguments are what `FlightBatteryStateInitialize` and `EventPeriodicCallbackCreate` return
(0 on success, -1 on failure); the code discards both. -/
def PowerManagerInitialize (portTICK_RATE_MS : ℕ) (stateInitialize callbackCreate : ℤ) :
    Option InitResult :=
  if portTICK_RATE_MS = 0 then none
  else
    -- FlightBatteryStateInitialize();
    let _ := stateInitialize
    -- EventPeriodicCallbackCreate(&ev, onTimer, SAMPLE_PERIOD_MS / portTICK_RATE_MS);
    let _ := callbackCreate
    some { calls := [InitCall.FlightBatteryStateInitialize,
                     InitCall.EventPeriodicCallbackCreate (SAMPLE_PERIOD_MS / portTICK_RATE_MS)],
           ret := 0 }

/-- Modelled from the spec: the charge-current modes of the charging driver; the module selects
`PIOS_BQ24075_CHARGE_500MA`, and the header declaring the others is not part of the sources. -/
inductive ChargeMode where
  | CHARGE_500MA : ChargeMode
  | OTHER (code : ℕ) : ChargeMode
deriving DecidableEq

/-- What a call of `PowerManagerStart` leaves behind: the modes passed to
`PIOS_BQ24075_SetChargeState(PIOS_BQ24075_ID, ...)` in order, and its return value. -/
structure StartResult where
  setChargeState : List ChargeMode
  ret : ℤ
deriving DecidableEq

/-- The function `PowerManagerStart`.  Its argument is the outcome of the driver command (0 on
success, anything else on failure); the code discards it. -/
def PowerManagerStart (setChargeStateOutcome : ℤ) : StartResult :=
  -- PIOS_BQ24075_SetChargeState(PIOS_BQ24075_ID, PIOS_BQ24075_CHARGE_500MA);
  let _ := setChargeStateOutcome
  { setChargeState := [ChargeMode.CHARGE_500MA], ret := 0 }

/-! ## Rounding to binary32 -/

namespace F32

theorem roundHalfEven_eq_of_near (x : ℚ) (n : ℤ) (h1 : (n : ℚ) - 1 / 2 < x)
    (h2 : x < (n : ℚ) + 1 / 2) : roundHalfEven x = n := by
  have hf1 : ((⌊x⌋ : ℤ) : ℚ) ≤ x := Int.floor_le x
  have hf2 : x < ((⌊x⌋ : ℤ) : ℚ) + 1 := Int.lt_floor_add_one x
  have hle : ⌊x⌋ ≤ n := by
    have : ((⌊x⌋ : ℤ) : ℚ) < (n : ℚ) + 1 := by linarith
    have : ⌊x⌋ < n + 1 := by exact_mod_cast this
    omega
  have hge : n ≤ ⌊x⌋ + 1 := by
    have : (n : ℚ) < ((⌊x⌋ : ℤ) : ℚ) + 1 + 1 := by linarith
    have : n < ⌊x⌋ + 1 + 1 := by exact_mod_cast this
    omega
  rcases (by omega : ⌊x⌋ = n ∨ ⌊x⌋ = n - 1) with h | h
  · unfold roundHalfEven
    simp only []
    rw [h, if_pos (by linarith)]
  · have hc : ((n - 1 : ℤ) : ℚ) = (n : ℚ) - 1 := by push_cast; ring
    unfold roundHalfEven
    simp only []
    rw [h, if_neg (by rw [hc]; linarith), if_pos (by rw [hc]; linarith)]
    omega

theorem roundHalfEven_intCast (m : ℤ) : roundHalfEven (m : ℚ) = m :=
  roundHalfEven_eq_of_near _ _ (by linarith) (by linarith)

theorem abs_roundHalfEven_sub_le (x : ℚ) : |(roundHalfEven x : ℚ) - x| ≤ 1 / 2 := by
  have hf1 : ((⌊x⌋ : ℤ) : ℚ) ≤ x := Int.floor_le x
  have hf2 : x < ((⌊x⌋ : ℤ) : ℚ) + 1 := Int.lt_floor_add_one x
  rw [abs_le]
  unfold roundHalfEven
  simp only
  split_ifs with h1 h2 h3
  · constructor <;> linarith
  · push_cast; constructor <;> linarith
  · constructor <;> linarith
  · push_cast; constructor <;> linarith

/-- Evaluation of `round` on a positive value whose binade `[2^e, 2^(e+1))` is known. -/
theorem round_eq_of_binade (q : ℚ) (e n : ℤ) (hlo : (2 : ℚ) ^ e ≤ q)
    (hhi : q < (2 : ℚ) ^ (e + 1)) (he : -126 ≤ e)
    (hn : roundHalfEven (q / (2 : ℚ) ^ (e - 23)) = n)
    (hfin : (n : ℚ) * (2 : ℚ) ^ (e - 23) < (2 : ℚ) ^ (128 : ℕ)) :
    round q = fin ((n : ℚ) * (2 : ℚ) ^ (e - 23)) := by
  have hpos : 0 < q := lt_of_lt_of_le (by positivity) hlo
  have hlog : Int.log 2 q = e := by
    have h1 : e ≤ Int.log 2 q :=
      (Int.zpow_le_iff_le_log (by norm_num) hpos).1 (by exact_mod_cast hlo)
    have h2 : Int.log 2 q < e + 1 :=
      (Int.lt_zpow_iff_log_lt (by norm_num) hpos).1 (by exact_mod_cast hhi)
    omega
  unfold round
  simp only [ne_of_gt hpos, if_false, abs_of_pos hpos, hlog, max_eq_left he, hn,
    not_le.2 hfin, not_lt.2 (le_of_lt hpos)]

/-- Evaluation of `round` on a literal: the binade `e` and the significand `n` are supplied,
the result `r` is checked against them. -/
theorem round_eq_of_near (q r : ℚ) (e n : ℤ) (hlo : (2 : ℚ) ^ e ≤ q)
    (hhi : q < (2 : ℚ) ^ (e + 1)) (he : -126 ≤ e)
    (h1 : (n : ℚ) - 1 / 2 < q / (2 : ℚ) ^ (e - 23))
    (h2 : q / (2 : ℚ) ^ (e - 23) < (n : ℚ) + 1 / 2)
    (hfin : (n : ℚ) * (2 : ℚ) ^ (e - 23) < (2 : ℚ) ^ (128 : ℕ))
    (hr : (n : ℚ) * (2 : ℚ) ^ (e - 23) = r) : round q = fin r := by
  rw [round_eq_of_binade q e n hlo hhi he (roundHalfEven_eq_of_near _ _ h1 h2) hfin, hr]

end F32

theorem ADC_INTERNAL_VREF_eq : ADC_INTERNAL_VREF = F32.fin (5033165 / 4194304) := by
  unfold ADC_INTERNAL_VREF
  exact F32.round_eq_of_near _ _ 0 10066330 (by norm_num) (by norm_num) (by norm_num)
    (by norm_num) (by norm_num) (by norm_num) (by norm_num)

theorem PM_BAT_DIVIDER_eq : PM_BAT_DIVIDER = F32.fin 3 := by
  unfold PM_BAT_DIVIDER
  exact F32.round_eq_of_near _ _ 1 12582912 (by norm_num) (by norm_num) (by norm_num)
    (by norm_num) (by norm_num) (by norm_num) (by norm_num)

/-- The table as the binary32 values its ten literals denote. -/
theorem charge_perc_eq : charge_perc =
    [ F32.fin 3, F32.fin (15854469 / 4194304), F32.fin (2008023 / 524288),
      F32.fin (4057989 / 1048576), F32.fin (16315843 / 4194304), F32.fin (2055209 / 524288),
      F32.fin (4152361 / 1048576), F32.fin 4, F32.fin (4236247 / 1048576),
      F32.fin (8598323 / 2097152) ] := by
  have e0 : F32.round (300 / 100) = F32.fin 3 :=
    F32.round_eq_of_near _ _ 1 12582912 (by norm_num) (by norm_num) (by norm_num)
      (by norm_num) (by norm_num) (by norm_num) (by norm_num)
  have e1 : F32.round (378 / 100) = F32.fin (15854469 / 4194304) :=
    F32.round_eq_of_near _ _ 1 15854469 (by norm_num) (by norm_num) (by norm_num)
      (by norm_num) (by norm_num) (by norm_num) (by norm_num)
  have e2 : F32.round (383 / 100) = F32.fin (2008023 / 524288) :=
    F32.round_eq_of_near _ _ 1 16064184 (by norm_num) (by norm_num) (by norm_num)
      (by norm_num) (by norm_num) (by norm_num) (by norm_num)
  have e3 : F32.round (387 / 100) = F32.fin (4057989 / 1048576) :=
    F32.round_eq_of_near _ _ 1 16231956 (by norm_num) (by norm_num) (by norm_num)
      (by norm_num) (by norm_num) (by norm_num) (by norm_num)
  have e4 : F32.round (389 / 100) = F32.fin (16315843 / 4194304) :=
    F32.round_eq_of_near _ _ 1 16315843 (by norm_num) (by norm_num) (by norm_num)
      (by norm_num) (by norm_num) (by norm_num) (by norm_num)
  have e5 : F32.round (392 / 100) = F32.fin (2055209 / 524288) :=
    F32.round_eq_of_near _ _ 1 16441672 (by norm_num) (by norm_num) (by norm_num)
      (by norm_num) (by norm_num) (by norm_num) (by norm_num)
  have e6 : F32.round (396 / 100) = F32.fin (4152361 / 1048576) :=
    F32.round_eq_of_near _ _ 1 16609444 (by norm_num) (by norm_num) (by norm_num)
      (by norm_num) (by norm_num) (by norm_num) (by norm_num)
  have e7 : F32.round (400 / 100) = F32.fin 4 :=
    F32.round_eq_of_near _ _ 2 8388608 (by norm_num) (by norm_num) (by norm_num)
      (by norm_num) (by norm_num) (by norm_num) (by norm_num)
  have e8 : F32.round (404 / 100) = F32.fin (4236247 / 1048576) :=
    F32.round_eq_of_near _ _ 2 8472494 (by norm_num) (by norm_num) (by norm_num)
      (by norm_num) (by norm_num) (by norm_num) (by norm_num)
  have e9 : F32.round (410 / 100) = F32.fin (8598323 / 2097152) :=
    F32.round_eq_of_near _ _ 2 8598323 (by norm_num) (by norm_num) (by norm_num)
      (by norm_num) (by norm_num) (by norm_num) (by norm_num)
  unfold charge_perc
  rw [e0, e1, e2, e3, e4, e5, e6, e7, e8, e9]

/-! ## Order lemmas for the float comparisons -/

namespace F32

theorem le_lt_trans {a b c : F32} (h1 : le a b = true) (h2 : lt b c = true) :
    lt a c = true := by
  rcases a with _ | s | a <;> rcases b with _ | t | b <;> rcases c with _ | u | c <;>
    simp [le, lt] at h1 h2 ⊢ <;>
    first
      | exact lt_of_le_of_lt h1 h2
      | simp_all

theorem lt_le_trans {a b c : F32} (h1 : lt a b = true) (h2 : le b c = true) :
    lt a c = true := by
  rcases a with _ | s | a <;> rcases b with _ | t | b <;> rcases c with _ | u | c <;>
    simp [le, lt] at h1 h2 ⊢ <;>
    first
      | exact lt_of_lt_of_le h1 h2
      | simp_all

theorem lt_lt_trans {a b c : F32} (h1 : lt a b = true) (h2 : lt b c = true) :
    lt a c = true := by
  rcases a with _ | s | a <;> rcases b with _ | t | b <;> rcases c with _ | u | c <;>
    simp [lt] at h1 h2 ⊢ <;>
    first
      | exact lt_trans h1 h2
      | simp_all

theorem lt_irrefl (a : F32) : lt a a = false := by
  rcases a with _ | s | a <;> simp [lt]

end F32

/-! ## The scan -/

theorem charge_perc_length : charge_perc.length = 10 := rfl

/-- A scan that returns stopped at the first index, from `charge` on, whose entry the voltage
does not exceed; every entry it passed was read inside the table and exceeded. -/
theorem scanLoop_some (fuel : ℕ) (v : F32) (c i : ℕ) (h : scanLoop fuel v c = some i) :
    c ≤ i ∧ (∃ t, charge_perc[i]? = some t ∧ F32.gt v t = false) ∧
      ∀ j, c ≤ j → j < i → ∃ t, charge_perc[j]? = some t ∧ F32.gt v t = true := by
  induction fuel generalizing c with
  | zero => simp [scanLoop] at h
  | succ fuel ih =>
    unfold scanLoop at h
    cases hc : charge_perc[c]? with
    | none => simp [hc] at h
    | some t =>
      simp only [hc] at h
      by_cases hg : F32.gt v t = true
      · rw [if_pos hg] at h
        obtain ⟨h1, h2, h3⟩ := ih (c + 1) h
        refine ⟨by omega, h2, ?_⟩
        intro j hj1 hj2
        rcases Nat.eq_or_lt_of_le hj1 with hj | hj
        · subst hj
          exact ⟨t, hc, hg⟩
        · exact h3 j hj hj2
      · rw [if_neg hg] at h
        have hci : c = i := by simpa using h
        subst hci
        refine ⟨le_refl _, ⟨t, hc, by simpa using hg⟩, ?_⟩
        intro j hj1 hj2
        omega

/-- A scan returns, at or before `k`, as soon as the entry at `k` is inside the table and not
exceeded and the fuel reaches `k`. -/
theorem scanLoop_total (fuel : ℕ) (v : F32) (c k : ℕ) (t : F32) (hk : charge_perc[k]? = some t)
    (hg : F32.gt v t = false) (hck : c ≤ k) (hf : k < c + fuel) :
    ∃ i, scanLoop fuel v c = some i ∧ i ≤ k := by
  induction fuel generalizing c with
  | zero => omega
  | succ fuel ih =>
    have hklen : k < charge_perc.length := by
      by_contra hcon
      rw [List.getElem?_eq_none (by omega)] at hk
      exact Option.noConfusion hk
    have hclen : c < charge_perc.length := by omega
    unfold scanLoop
    rw [List.getElem?_eq_getElem hclen]
    simp only
    by_cases hgc : F32.gt v charge_perc[c] = true
    · rw [if_pos hgc]
      have hne : c ≠ k := by
        intro hckeq
        subst hckeq
        rw [List.getElem?_eq_getElem hclen] at hk
        have : charge_perc[c] = t := by simpa using hk
        rw [this, hg] at hgc
        exact Bool.noConfusion hgc
      exact ih (c + 1) (by omega) (by omega)
    · rw [if_neg hgc]
      exact ⟨c, rfl, hck⟩

/-- More fuel than the table has entries changes nothing: the scan never uses it. -/
theorem scanLoop_fuel (fuel : ℕ) (v : F32) (c : ℕ) (hf : charge_perc.length < c + fuel) :
    scanLoop fuel v c = scanLoop (charge_perc.length + 1 - c) v c := by
  induction fuel generalizing c with
  | zero =>
    have h0 : charge_perc.length + 1 - c = 0 := by omega
    rw [h0]
  | succ fuel ih =>
    by_cases hc : c < charge_perc.length
    · have h1 : charge_perc.length + 1 - c = (charge_perc.length + 1 - (c + 1)) + 1 := by omega
      rw [h1]
      unfold scanLoop
      rw [List.getElem?_eq_getElem hc]
      simp only
      rw [ih (c + 1) (by omega)]
    · have hn : charge_perc[c]? = none := List.getElem?_eq_none (by omega)
      unfold scanLoop
      cases hfu : charge_perc.length + 1 - c with
      | zero => simp [hn]
      | succ m => simp [hn]

theorem charge_perc_first : charge_perc[0]? = some (F32.fin 3) := by
  rw [charge_perc_eq]; rfl

theorem charge_perc_last : charge_perc[9]? = some (F32.fin (8598323 / 2097152)) := by
  rw [charge_perc_eq]; rfl

/-- Every entry of the table is a finite value. -/
theorem charge_perc_finite (i : ℕ) (t : F32) (h : charge_perc[i]? = some t) :
    ∃ x : ℚ, t = F32.fin x := by
  have hi : i < 10 := by
    by_contra hcon
    rw [List.getElem?_eq_none (by rw [charge_perc_length]; omega)] at h
    exact Option.noConfusion h
  rw [charge_perc_eq] at h
  interval_cases i <;> simp at h <;> exact ⟨_, h.symm⟩

theorem F32.le_fin_eq_not_gt (a b : ℚ) :
    F32.le (F32.fin a) (F32.fin b) = !F32.gt (F32.fin a) (F32.fin b) := by
  by_cases h : b < a
  · simp [F32.le, F32.gt, F32.lt, h, not_le.2 h]
  · simp [F32.le, F32.gt, F32.lt, h, not_lt.1 h]

/-- The body of `pmBatteryChargeFromVoltage` with the two table reads resolved. -/
theorem pm_unfold (v : F32) :
    pmBatteryChargeFromVoltage v =
      if F32.lt v (F32.fin 3) then some 0
      else if F32.gt v (F32.fin (8598323 / 2097152)) then some 9
      else (scanLoop scanFuel v 0).map (fun charge => (charge : ℤ)) := by
  unfold pmBatteryChargeFromVoltage
  rw [charge_perc_first, charge_perc_last]

/-- The function returns for every input, with a result from 0 to 9. -/
theorem pm_total (v : F32) :
    ∃ c : ℤ, pmBatteryChargeFromVoltage v = some c ∧ 0 ≤ c ∧ c ≤ 9 := by
  rw [pm_unfold]
  split_ifs with h1 h2
  · exact ⟨0, rfl, le_refl _, by norm_num⟩
  · exact ⟨9, rfl, by norm_num, le_refl _⟩
  · obtain ⟨i, hi, hle⟩ := scanLoop_total scanFuel v 0 9 _ charge_perc_last
      (by simpa using h2) (by omega) (by simp [scanFuel, charge_perc_length])
    rw [hi]
    exact ⟨(i : ℤ), rfl, by positivity, by exact_mod_cast hle⟩

/-- In the scanned range the result is the least index whose entry the voltage does not
exceed. -/
theorem pm_scan_least (q : ℚ) (hlo : 3 ≤ q) (hhi : q ≤ 8598323 / 2097152) :
    ∃ i : ℕ, pmBatteryChargeFromVoltage (F32.fin q) = some (i : ℤ) ∧ i ≤ 9 ∧
      (∃ t, charge_perc[i]? = some t ∧ F32.le (F32.fin q) t = true) ∧
      ∀ j, j < i → ∀ t, charge_perc[j]? = some t → F32.le (F32.fin q) t = false := by
  have h1 : F32.lt (F32.fin q) (F32.fin 3) = false := by simp [F32.lt, hlo]
  have h2 : F32.gt (F32.fin q) (F32.fin (8598323 / 2097152)) = false := by
    simp [F32.gt, F32.lt, hhi]
  obtain ⟨i, hi, hle⟩ := scanLoop_total scanFuel (F32.fin q) 0 9 _ charge_perc_last h2
    (by omega) (by simp [scanFuel, charge_perc_length])
  obtain ⟨-, ⟨t, ht, hgt⟩, hbelow⟩ := scanLoop_some _ _ _ _ hi
  refine ⟨i, ?_, hle, ⟨t, ht, ?_⟩, ?_⟩
  · rw [pm_unfold, h1, h2, hi]; rfl
  · obtain ⟨x, rfl⟩ := charge_perc_finite i t ht
    rw [F32.le_fin_eq_not_gt, hgt]; rfl
  · intro j hj u hu
    obtain ⟨u2, hu2, hg⟩ := hbelow j (Nat.zero_le _) hj
    rw [hu] at hu2
    have hu3 : u = u2 := by simpa using hu2
    subst hu3
    obtain ⟨x, rfl⟩ := charge_perc_finite j u hu
    rw [F32.le_fin_eq_not_gt, hg]; rfl

namespace F32

theorem round_zero : round 0 = fin 0 := by
  simp [round]

/-- Conversion of an integer below 2^24 to binary32 is exact. -/
theorem round_natCast (n : ℕ) (h : n < 2 ^ 24) : round (n : ℚ) = fin (n : ℚ) := by
  rcases Nat.eq_zero_or_pos n with h0 | hpos
  · subst h0
    simpa using round_zero
  have hq : (0 : ℚ) < (n : ℚ) := by exact_mod_cast hpos
  have hlo : (2 : ℚ) ^ (Int.log 2 (n : ℚ)) ≤ (n : ℚ) := by
    have := Int.zpow_log_le_self (b := 2) (r := (n : ℚ)) (by norm_num) hq
    exact_mod_cast this
  have hhi : (n : ℚ) < (2 : ℚ) ^ (Int.log 2 (n : ℚ) + 1) := by
    have := Int.lt_zpow_succ_log_self (b := 2) (by norm_num) (n : ℚ)
    exact_mod_cast this
  have he0 : 0 ≤ Int.log 2 (n : ℚ) := by
    apply (Int.zpow_le_iff_le_log (b := 2) (by norm_num) hq).1
    have : (1 : ℚ) ≤ (n : ℚ) := by exact_mod_cast hpos
    simpa using this
  have he1 : Int.log 2 (n : ℚ) < 24 := by
    apply (Int.lt_zpow_iff_log_lt (b := 2) (by norm_num) hq).1
    have h24 : (n : ℚ) < (2 : ℚ) ^ (24 : ℕ) := by exact_mod_cast h
    rw [← zpow_natCast] at h24
    exact_mod_cast h24
  obtain ⟨k, hk⟩ : ∃ k : ℕ, Int.log 2 (n : ℚ) - 23 = -(k : ℤ) :=
    ⟨(23 - Int.log 2 (n : ℚ)).toNat, by omega⟩
  have hulp : (2 : ℚ) ^ (Int.log 2 (n : ℚ) - 23) = ((2 : ℚ) ^ k)⁻¹ := by
    rw [hk, zpow_neg, zpow_natCast]
  have hx : (n : ℚ) / (2 : ℚ) ^ (Int.log 2 (n : ℚ) - 23) = (((n * 2 ^ k : ℕ) : ℤ) : ℚ) := by
    rw [hulp]
    push_cast
    field_simp
  have hback : ((((n * 2 ^ k : ℕ) : ℤ) : ℚ)) * (2 : ℚ) ^ (Int.log 2 (n : ℚ) - 23) = (n : ℚ) := by
    rw [hulp]
    push_cast
    field_simp
  have hres := round_eq_of_binade (n : ℚ) (Int.log 2 (n : ℚ)) ((n * 2 ^ k : ℕ) : ℤ) hlo hhi
    (by omega) (by rw [hx]; exact roundHalfEven_intCast _)
    (by
      rw [hback]
      have h1 : (n : ℚ) < (2 : ℚ) ^ (24 : ℕ) := by exact_mod_cast h
      have h2 : (2 : ℚ) ^ (24 : ℕ) < (2 : ℚ) ^ (128 : ℕ) := by norm_num
      exact lt_trans h1 h2)
  rw [hres, hback]

/-- In the normal range rounding returns a finite value within relative error 2^-24. -/
theorem round_near (q : ℚ) (h1 : (2 : ℚ) ^ (-126 : ℤ) ≤ q) (h2 : q ≤ (2 : ℚ) ^ (127 : ℕ)) :
    ∃ r : ℚ, round q = fin r ∧ |r - q| ≤ q / 2 ^ 24 := by
  have hq : (0 : ℚ) < q := lt_of_lt_of_le (by positivity) h1
  have hlo : (2 : ℚ) ^ (Int.log 2 q) ≤ q := by
    have := Int.zpow_log_le_self (b := 2) (r := q) (by norm_num) hq
    exact_mod_cast this
  have hhi : q < (2 : ℚ) ^ (Int.log 2 q + 1) := by
    have := Int.lt_zpow_succ_log_self (b := 2) (by norm_num) q
    exact_mod_cast this
  have he : -126 ≤ Int.log 2 q := by
    apply (Int.zpow_le_iff_le_log (b := 2) (by norm_num) hq).1
    exact_mod_cast h1
  have hulp_pos : (0 : ℚ) < (2 : ℚ) ^ (Int.log 2 q - 23) := by positivity
  have hulp : (2 : ℚ) ^ (Int.log 2 q - 23) = (2 : ℚ) ^ (Int.log 2 q) / 2 ^ 23 := by
    rw [zpow_sub₀ (by norm_num : (2 : ℚ) ≠ 0)]
    norm_num
  have herr : |(roundHalfEven (q / (2 : ℚ) ^ (Int.log 2 q - 23)) : ℚ) *
      (2 : ℚ) ^ (Int.log 2 q - 23) - q| ≤ q / 2 ^ 24 := by
    have hx := abs_roundHalfEven_sub_le (q / (2 : ℚ) ^ (Int.log 2 q - 23))
    have hrew : (roundHalfEven (q / (2 : ℚ) ^ (Int.log 2 q - 23)) : ℚ) *
        (2 : ℚ) ^ (Int.log 2 q - 23) - q =
        ((roundHalfEven (q / (2 : ℚ) ^ (Int.log 2 q - 23)) : ℚ) -
          q / (2 : ℚ) ^ (Int.log 2 q - 23)) * (2 : ℚ) ^ (Int.log 2 q - 23) := by
      field_simp
    rw [hrew, abs_mul, abs_of_pos hulp_pos]
    calc |(roundHalfEven (q / (2 : ℚ) ^ (Int.log 2 q - 23)) : ℚ) -
          q / (2 : ℚ) ^ (Int.log 2 q - 23)| * (2 : ℚ) ^ (Int.log 2 q - 23)
        ≤ 1 / 2 * (2 : ℚ) ^ (Int.log 2 q - 23) :=
          mul_le_mul_of_nonneg_right hx (le_of_lt hulp_pos)
      _ = (2 : ℚ) ^ (Int.log 2 q) / 2 ^ 24 := by rw [hulp]; ring
      _ ≤ q / 2 ^ 24 := div_le_div_of_nonneg_right hlo (by positivity)
  refine ⟨_, round_eq_of_binade q (Int.log 2 q) _ hlo hhi he rfl ?_, herr⟩
  have hup := (abs_le.1 herr).2
  have h3 : q / 2 ^ 24 ≤ (2 : ℚ) ^ (127 : ℕ) / 2 ^ 24 :=
    div_le_div_of_nonneg_right h2 (by positivity)
  have h4 : (2 : ℚ) ^ (127 : ℕ) + (2 : ℚ) ^ (127 : ℕ) / 2 ^ 24 < (2 : ℚ) ^ (128 : ℕ) := by
    norm_num
  linarith

end F32

theorem F32.mul_inf_fin (s : Bool) (b : ℚ) :
    F32.mul (F32.inf s) (F32.fin b) =
      if b = 0 then F32.nan else F32.inf (xor s (decide (b < 0))) := rfl

theorem F32.div_fin_fin (a b : ℚ) (hb : b ≠ 0) :
    F32.div (F32.fin a) (F32.fin b) = F32.round (a / b) := by
  show (if b = 0 then (if a = 0 then F32.nan else F32.inf (decide (a < 0)))
    else F32.round (a / b)) = _
  rw [if_neg hb]

theorem F32.div_fin_zero (a : ℚ) :
    F32.div (F32.fin a) (F32.fin 0) = if a = 0 then F32.nan else F32.inf (decide (a < 0)) := by
  show (if (0 : ℚ) = 0 then (if a = 0 then F32.nan else F32.inf (decide (a < 0)))
    else F32.round (a / 0)) = _
  rw [if_pos rfl]

theorem F32.mul_fin_fin (a b : ℚ) : F32.mul (F32.fin a) (F32.fin b) = F32.round (a * b) := rfl

theorem adcConvert_steps (v vref : ℕ) (y1 y2 y3 : ℚ) (hv : v < 2 ^ 24) (hr : vref < 2 ^ 24)
    (h1 : F32.round ((vref : ℚ) / (5033165 / 4194304)) = F32.fin y1) (hy1 : y1 ≠ 0)
    (h2 : F32.round ((v : ℚ) / y1) = F32.fin y2)
    (h3 : F32.round (y2 * 3) = F32.fin y3) :
    adcConvertToVoltageFloat v vref = F32.fin y3 := by
  unfold adcConvertToVoltageFloat F32.ofNat
  rw [F32.round_natCast v hv, F32.round_natCast vref hr, ADC_INTERNAL_VREF_eq, PM_BAT_DIVIDER_eq]
  have hx0 : ((5033165 : ℚ) / 4194304) ≠ 0 := by norm_num
  rw [F32.div_fin_fin _ _ hx0, h1, F32.div_fin_fin _ _ hy1, h2, F32.mul_fin_fin, h3]

theorem adcConvert_vref_zero (v : ℕ) (hv : v < 2 ^ 24) :
    adcConvertToVoltageFloat v 0 = if v = 0 then F32.nan else F32.inf false := by
  unfold adcConvertToVoltageFloat F32.ofNat
  rw [F32.round_natCast v hv, F32.round_natCast 0 (by norm_num), ADC_INTERNAL_VREF_eq,
    PM_BAT_DIVIDER_eq]
  have hx0 : ((5033165 : ℚ) / 4194304) ≠ 0 := by norm_num
  rw [F32.div_fin_fin _ _ hx0]
  have hz : (((0 : ℕ) : ℚ)) / (5033165 / 4194304) = 0 := by norm_num
  rw [hz, F32.round_zero, F32.div_fin_zero]
  by_cases h0 : v = 0
  · subst h0
    rw [if_pos (by norm_num), if_pos rfl]
    rfl
  · have hq : ((v : ℚ)) ≠ 0 := by exact_mod_cast h0
    have hneg : ¬ ((v : ℚ) < 0) := by
      have : (0 : ℚ) ≤ (v : ℚ) := by positivity
      linarith
    rw [if_neg hq, if_neg h0, decide_eq_false hneg]
    show (if (3 : ℚ) = 0 then F32.nan else F32.inf (xor false (decide ((3 : ℚ) < 0)))) = _
    have h3 : decide ((3 : ℚ) < 0) = false := decide_eq_false (by norm_num)
    rw [if_neg (by norm_num), h3]
    rfl
theorem F32.roundHalfEven_eq_of_tie_even (x : ℚ) (n : ℤ) (h : x = (n : ℚ) + 1 / 2)
    (hn : n % 2 = 0) : F32.roundHalfEven x = n := by
  have hf : ⌊x⌋ = n := by
    rw [Int.floor_eq_iff]
    constructor <;> linarith
  unfold F32.roundHalfEven
  simp only []
  rw [hf, if_neg (by rw [h]; norm_num), if_neg (by rw [h]; norm_num), if_pos hn]

/-- Evaluation of `round` on a literal that lies halfway between two binary32 values, the
lower one with an even significand. -/
theorem F32.round_eq_of_tie_even (q r : ℚ) (e n : ℤ) (hlo : (2 : ℚ) ^ e ≤ q)
    (hhi : q < (2 : ℚ) ^ (e + 1)) (he : -126 ≤ e)
    (h : q / (2 : ℚ) ^ (e - 23) = (n : ℚ) + 1 / 2) (hn : n % 2 = 0)
    (hfin : (n : ℚ) * (2 : ℚ) ^ (e - 23) < (2 : ℚ) ^ (128 : ℕ))
    (hr : (n : ℚ) * (2 : ℚ) ^ (e - 23) = r) : F32.round q = F32.fin r := by
  rw [F32.round_eq_of_binade q e n hlo hhi he (F32.roundHalfEven_eq_of_tie_even _ _ h hn) hfin,
    hr]

theorem toUInt16_lt16 (n : ℕ) : toUInt16 n < 2 ^ 16 := by
  unfold toUInt16
  exact Nat.mod_lt _ (by norm_num)

theorem toUInt16_lt (n : ℕ) : toUInt16 n < 2 ^ 24 := by
  unfold toUInt16
  have : n % 2 ^ 16 < 2 ^ 16 := Nat.mod_lt _ (by norm_num)
  omega

/-- The samples R = 1489, B = 1654 convert to 3.9989257 V. -/
theorem adcConvert_1654_1489 :
    adcConvertToVoltageFloat 1654 1489 = F32.fin (8386355 / 2097152) :=
  adcConvert_steps 1654 1489 (5082453 / 4096) (11181807 / 8388608) (8386355 / 2097152)
    (by norm_num) (by norm_num)
    (F32.round_eq_of_near _ _ 10 10164906 (by norm_num) (by norm_num) (by norm_num)
      (by norm_num) (by norm_num) (by norm_num) (by norm_num))
    (by norm_num)
    (F32.round_eq_of_near _ _ 0 11181807 (by norm_num) (by norm_num) (by norm_num)
      (by norm_num) (by norm_num) (by norm_num) (by norm_num))
    (F32.round_eq_of_tie_even _ _ 1 16772710 (by norm_num) (by norm_num) (by norm_num)
      (by norm_num) (by norm_num) (by norm_num) (by norm_num))

/-- The samples R = 4096, B = 2048 convert to 1.80000007 V. -/
theorem adcConvert_2048_4096 :
    adcConvertToVoltageFloat 2048 4096 = F32.fin (15099495 / 8388608) :=
  adcConvert_steps 2048 4096 (13981013 / 4096) (5033165 / 8388608) (15099495 / 8388608)
    (by norm_num) (by norm_num)
    (F32.round_eq_of_near _ _ 11 13981013 (by norm_num) (by norm_num) (by norm_num)
      (by norm_num) (by norm_num) (by norm_num) (by norm_num))
    (by norm_num)
    (F32.round_eq_of_near _ _ (-1) 10066330 (by norm_num) (by norm_num) (by norm_num)
      (by norm_num) (by norm_num) (by norm_num) (by norm_num))
    (F32.round_eq_of_near _ _ 0 15099495 (by norm_num) (by norm_num) (by norm_num)
      (by norm_num) (by norm_num) (by norm_num) (by norm_num))

/-- The arithmetic of the error bound: two roundings after a quotient known within one
rounding stay within 2^-22 of the exact value. -/
theorem conv_bound (s a2 y2 y3 : ℚ) (hs : 0 ≤ s)
    (halo : s * (16777216 / 16777217) ≤ a2) (hahi : a2 ≤ s * (16777216 / 16777215))
    (h2 : |y2 - a2| ≤ a2 / 2 ^ 24) (h3 : |y3 - y2 * 3| ≤ y2 * 3 / 2 ^ 24) :
    |y3 - s * (36 / 10 / (5033165 / 4194304))| ≤
      s * (36 / 10 / (5033165 / 4194304)) / 2 ^ 22 := by
  obtain ⟨h2a, h2b⟩ := abs_le.1 h2
  obtain ⟨h3a, h3b⟩ := abs_le.1 h3
  rw [abs_le]
  norm_num at h2a h2b h3a h3b ⊢
  constructor <;> linarith

/-- The conversion of a non-zero reference sample is finite and within relative error 2^-22
of 3.6 * B / R. -/
theorem adcConvert_near (B R : ℕ) (hB : B < 2 ^ 16) (hR : R < 2 ^ 16) (hR0 : R ≠ 0) :
    ∃ q : ℚ, adcConvertToVoltageFloat B R = F32.fin q ∧
      |q - 36 / 10 * (B : ℚ) / (R : ℚ)| ≤ 36 / 10 * (B : ℚ) / (R : ℚ) / 2 ^ 22 := by
  have hRq1 : (1 : ℚ) ≤ (R : ℚ) := by
    have : 1 ≤ R := Nat.one_le_iff_ne_zero.2 hR0
    exact_mod_cast this
  have hRq2 : (R : ℚ) ≤ 65535 := by
    have : R ≤ 65535 := by omega
    exact_mod_cast this
  have hBq2 : (B : ℚ) ≤ 65535 := by
    have : B ≤ 65535 := by omega
    exact_mod_cast this
  have hBq0 : (0 : ℚ) ≤ (B : ℚ) := by positivity
  -- first rounding: R / 1.2f
  have ha1lo : (1 / 2 : ℚ) ≤ (R : ℚ) / (5033165 / 4194304) := by
    rw [le_div_iff₀ (by norm_num)]; linarith
  have ha1hi : (R : ℚ) / (5033165 / 4194304) ≤ 65535 := by
    rw [div_le_iff₀ (by norm_num)]; linarith
  obtain ⟨y1, hy1, e1⟩ := F32.round_near ((R : ℚ) / (5033165 / 4194304))
    (le_trans (by norm_num) ha1lo) (le_trans ha1hi (by norm_num))
  obtain ⟨e1a, e1b⟩ := abs_le.1 e1
  have hy1lo : (R : ℚ) / (5033165 / 4194304) * (16777215 / 16777216) ≤ y1 := by linarith
  have hy1hi : y1 ≤ (R : ℚ) / (5033165 / 4194304) * (16777217 / 16777216) := by linarith
  have hy1pos : 0 < y1 := by linarith
  have hy1lo2 : (1 / 4 : ℚ) ≤ y1 := by linarith
  have hy1hi2 : y1 ≤ 65536 := by linarith
  rcases Nat.eq_zero_or_pos B with hB0 | hBpos
  · subst hB0
    refine ⟨0, adcConvert_steps 0 R y1 0 0 (by norm_num) (by omega) hy1 (ne_of_gt hy1pos)
      (by simpa using F32.round_zero) (by simpa using F32.round_zero), by simp⟩
  have hBq1 : (1 : ℚ) ≤ (B : ℚ) := by exact_mod_cast hBpos
  -- second rounding: B / y1
  have ha2lo : (1 / 65536 : ℚ) ≤ (B : ℚ) / y1 := by
    rw [le_div_iff₀ hy1pos]; linarith
  have ha2hi : (B : ℚ) / y1 ≤ 262144 := by
    rw [div_le_iff₀ hy1pos]; linarith
  obtain ⟨y2, hy2, e2⟩ := F32.round_near ((B : ℚ) / y1)
    (le_trans (by norm_num) ha2lo) (le_trans ha2hi (by norm_num))
  obtain ⟨e2a, e2b⟩ := abs_le.1 e2
  have hy2lo : (1 / 131072 : ℚ) ≤ y2 := by linarith
  have hy2hi : y2 ≤ 524288 := by linarith
  -- third rounding: y2 * 3
  obtain ⟨y3, hy3, e3⟩ := F32.round_near (y2 * 3)
    (le_trans (by norm_num) (by linarith : (1 / 131072 : ℚ) ≤ y2 * 3))
    (le_trans (by linarith : y2 * 3 ≤ 1572864) (by norm_num))
  refine ⟨y3, adcConvert_steps B R y1 y2 y3 (by omega) (by omega) hy1 (ne_of_gt hy1pos) hy2 hy3,
    ?_⟩
  -- the quotient B / y1 against s = B / (R / 1.2f)
  have ha1pos : (0 : ℚ) < (R : ℚ) / (5033165 / 4194304) := by linarith
  have hs : (0 : ℚ) ≤ (B : ℚ) / ((R : ℚ) / (5033165 / 4194304)) := by positivity
  have halo : (B : ℚ) / ((R : ℚ) / (5033165 / 4194304)) * (16777216 / 16777217) ≤
      (B : ℚ) / y1 := by
    rw [le_div_iff₀ hy1pos]
    have hmul : (B : ℚ) / ((R : ℚ) / (5033165 / 4194304)) * (16777216 / 16777217) * y1 ≤
        (B : ℚ) / ((R : ℚ) / (5033165 / 4194304)) * (16777216 / 16777217) *
          ((R : ℚ) / (5033165 / 4194304) * (16777217 / 16777216)) :=
      mul_le_mul_of_nonneg_left hy1hi (by positivity)
    have heq : (B : ℚ) / ((R : ℚ) / (5033165 / 4194304)) * (16777216 / 16777217) *
          ((R : ℚ) / (5033165 / 4194304) * (16777217 / 16777216)) = (B : ℚ) := by
      have hRne : (R : ℚ) ≠ 0 := by linarith
      field_simp
      ring
    linarith
  have hahi : (B : ℚ) / y1 ≤
      (B : ℚ) / ((R : ℚ) / (5033165 / 4194304)) * (16777216 / 16777215) := by
    rw [div_le_iff₀ hy1pos]
    have hmul : (B : ℚ) / ((R : ℚ) / (5033165 / 4194304)) * (16777216 / 16777215) *
          ((R : ℚ) / (5033165 / 4194304) * (16777215 / 16777216)) ≤
        (B : ℚ) / ((R : ℚ) / (5033165 / 4194304)) * (16777216 / 16777215) * y1 :=
      mul_le_mul_of_nonneg_left hy1lo (by positivity)
    have heq : (B : ℚ) / ((R : ℚ) / (5033165 / 4194304)) * (16777216 / 16777215) *
          ((R : ℚ) / (5033165 / 4194304) * (16777215 / 16777216)) = (B : ℚ) := by
      have hRne : (R : ℚ) ≠ 0 := by linarith
      field_simp
      ring
    linarith
  have hfin := conv_bound _ _ y2 y3 hs halo hahi e2 e3
  have hT : (B : ℚ) / ((R : ℚ) / (5033165 / 4194304)) * (36 / 10 / (5033165 / 4194304)) =
      36 / 10 * (B : ℚ) / (R : ℚ) := by
    have hRne : (R : ℚ) ≠ 0 := by linarith
    field_simp
    ring
  rw [hT] at hfin
  exact hfin

/-! ## One tick -/

/-- The record a tick publishes, given the bucket computed from the retained voltage. -/
theorem onTimer_eq {ρ : Type} (st : FlightBatteryStateData ρ) (inp : TickInputs ρ) (c : ℤ)
    (hc : pmBatteryChargeFromVoltage st.Voltage = some c) :
    onTimer st inp = some
      { flightBatteryData :=
          { Voltage := adcConvertToVoltageFloat (toUInt16 inp.batPin) (toUInt16 inp.vrefPin),
            Current := F32.ofNat inp.chargingState,
            EstimatedFlightTime := c,
            rest := inp.stored.rest },
        stateSets :=
          [{ Voltage := adcConvertToVoltageFloat (toUInt16 inp.batPin) (toUInt16 inp.vrefPin),
             Current := F32.ofNat inp.chargingState,
             EstimatedFlightTime := c,
             rest := inp.stored.rest }],
        alarmSets :=
          [(AlarmChannel.BATTERY,
            if c = 1 then AlarmLevel.WARNING
            else if c = 0 then AlarmLevel.ERROR
            else AlarmLevel.OK)] } := by
  unfold onTimer
  simp only [hc]

theorem pm_zero : pmBatteryChargeFromVoltage (F32.fin 0) = some 0 := by
  rw [pm_unfold]
  have h : F32.lt (F32.fin 0) (F32.fin 3) = true := by
    simp only [F32.lt, decide_eq_true_eq]; norm_num
  rw [h]
  rfl

theorem pm_3_9989 : pmBatteryChargeFromVoltage (F32.fin (8386355 / 2097152)) = some 7 := by
  rw [pm_unfold]
  simp [scanLoop, scanFuel, charge_perc_eq, F32.lt, F32.gt]
  norm_num

/-! ## Runs of ticks, the recorded scan and further evaluations -/

/-- The table is strictly increasing. -/
theorem charge_perc_strict (i j : ℕ) (a b : F32) (hij : i < j)
    (ha : charge_perc[i]? = some a) (hb : charge_perc[j]? = some b) : F32.lt a b = true := by
  have hj : j < 10 := by
    by_contra hcon
    rw [List.getElem?_eq_none (by rw [charge_perc_length]; omega)] at hb
    exact Option.noConfusion hb
  rw [charge_perc_eq] at ha hb
  interval_cases j <;> interval_cases i <;> simp at ha hb <;> subst ha <;> subst hb <;>
    simp only [F32.lt, decide_eq_true_eq] <;> norm_num

/-- The samples R = 4096, B = 3000 convert to 2.63671875 V. -/
theorem adcConvert_3000_4096 :
    adcConvertToVoltageFloat 3000 4096 = F32.fin (675 / 256) :=
  adcConvert_steps 3000 4096 (13981013 / 4096) (225 / 256) (675 / 256)
    (by norm_num) (by norm_num)
    (F32.round_eq_of_near _ _ 11 13981013 (by norm_num) (by norm_num) (by norm_num)
      (by norm_num) (by norm_num) (by norm_num) (by norm_num))
    (by norm_num)
    (F32.round_eq_of_near _ _ (-1) 14745600 (by norm_num) (by norm_num) (by norm_num)
      (by norm_num) (by norm_num) (by norm_num) (by norm_num))
    (F32.round_eq_of_near _ _ 1 11059200 (by norm_num) (by norm_num) (by norm_num)
      (by norm_num) (by norm_num) (by norm_num) (by norm_num))

theorem pm_2_6367 : pmBatteryChargeFromVoltage (F32.fin (675 / 256)) = some 0 := by
  rw [pm_unfold]
  have h : F32.lt (F32.fin (675 / 256)) (F32.fin 3) = true := by
    simp only [F32.lt, decide_eq_true_eq]; norm_num
  rw [h]
  rfl

/-- What a tick that returns has done, read off its result. -/
theorem onTimer_some {ρ : Type} (st : FlightBatteryStateData ρ) (inp : TickInputs ρ)
    (r : TickResult ρ) (h : onTimer st inp = some r) :
    r.stateSets = [r.flightBatteryData] ∧
    pmBatteryChargeFromVoltage st.Voltage = some r.flightBatteryData.EstimatedFlightTime ∧
    r.flightBatteryData.Voltage =
      adcConvertToVoltageFloat (toUInt16 inp.batPin) (toUInt16 inp.vrefPin) ∧
    r.alarmSets =
      [(AlarmChannel.BATTERY,
        if r.flightBatteryData.EstimatedFlightTime = 0 then AlarmLevel.ERROR
        else if r.flightBatteryData.EstimatedFlightTime = 1 then AlarmLevel.WARNING
        else AlarmLevel.OK)] := by
  obtain ⟨c, hc, -, -⟩ := pm_total st.Voltage
  rw [onTimer_eq st inp c hc] at h
  have hr := Option.some.inj h
  subst hr
  refine ⟨rfl, hc, rfl, ?_⟩
  show [(AlarmChannel.BATTERY,
      if c = 1 then AlarmLevel.WARNING else if c = 0 then AlarmLevel.ERROR else AlarmLevel.OK)] =
    [(AlarmChannel.BATTERY,
      if c = 0 then AlarmLevel.ERROR else if c = 1 then AlarmLevel.WARNING else AlarmLevel.OK)]
  by_cases h1 : c = 1
  · subst h1
    rfl
  · by_cases hz : c = 0
    · subst hz
      rfl
    · rw [if_neg h1, if_neg hz, if_neg hz, if_neg h1]

/-- A run of ticks returns, with one result per tick. -/
theorem runTicks_total {ρ : Type} (st : FlightBatteryStateData ρ) (inputs : List (TickInputs ρ)) :
    ∃ rs, runTicks st inputs = some rs ∧ rs.length = inputs.length := by
  induction inputs generalizing st with
  | nil => exact ⟨[], rfl, rfl⟩
  | cons inp later ih =>
    obtain ⟨c, hc, -, -⟩ := pm_total st.Voltage
    obtain ⟨r, hr⟩ : ∃ r, onTimer st inp = some r := ⟨_, onTimer_eq st inp c hc⟩
    obtain ⟨rs, hrs, hlen⟩ := ih r.flightBatteryData
    refine ⟨r :: rs, ?_, by simp [hlen]⟩
    unfold runTicks
    rw [hr]
    simp only
    rw [hrs]

/-- A run of at least one tick is its first tick followed by the run from the record that tick
left. -/
theorem runTicks_cons {ρ : Type} (st : FlightBatteryStateData ρ) (inp : TickInputs ρ)
    (later : List (TickInputs ρ)) (rs : List (TickResult ρ))
    (h : runTicks st (inp :: later) = some rs) :
    ∃ r rs2, onTimer st inp = some r ∧ runTicks r.flightBatteryData later = some rs2 ∧
      rs = r :: rs2 := by
  unfold runTicks at h
  cases h1 : onTimer st inp with
  | none => rw [h1] at h; exact Option.noConfusion h
  | some r =>
    rw [h1] at h
    simp only at h
    cases h2 : runTicks r.flightBatteryData later with
    | none => rw [h2] at h; exact Option.noConfusion h
    | some rs2 =>
      rw [h2] at h
      exact ⟨r, rs2, rfl, h2, (Option.some.inj h).symm⟩

/-- In a run, the bucket a tick publishes is that of the voltage the tick before it published. -/
theorem runTicks_adjacent {ρ : Type} (st : FlightBatteryStateData ρ)
    (inputs : List (TickInputs ρ)) (rs : List (TickResult ρ)) (k : ℕ)
    (prev cur : TickResult ρ) (h : runTicks st inputs = some rs)
    (hprev : rs[k]? = some prev) (hcur : rs[k + 1]? = some cur) :
    ∃ dprev dcur, prev.stateSets = [dprev] ∧ cur.stateSets = [dcur] ∧
      pmBatteryChargeFromVoltage dprev.Voltage = some dcur.EstimatedFlightTime ∧
      cur.alarmSets =
        [(AlarmChannel.BATTERY,
          if dcur.EstimatedFlightTime = 0 then AlarmLevel.ERROR
          else if dcur.EstimatedFlightTime = 1 then AlarmLevel.WARNING
          else AlarmLevel.OK)] := by
  induction inputs generalizing st rs k with
  | nil =>
    have hnil : rs = [] := by
      have : some ([] : List (TickResult ρ)) = some rs := h
      exact (Option.some.inj this).symm
    subst hnil
    simp at hprev
  | cons inp later ih =>
    obtain ⟨r, rs2, hr, hrs2, rfl⟩ := runTicks_cons st inp later rs h
    cases k with
    | zero =>
      have hp : r = prev := by simpa using hprev
      subst hp
      have hc2 : rs2[0]? = some cur := by simpa using hcur
      cases later with
      | nil =>
        have hnil : rs2 = [] := by
          have : some ([] : List (TickResult ρ)) = some rs2 := hrs2
          exact (Option.some.inj this).symm
        subst hnil
        simp at hc2
      | cons inp2 later2 =>
        obtain ⟨r2, rs3, hr2, -, rfl⟩ := runTicks_cons _ inp2 later2 rs2 hrs2
        have hcc : r2 = cur := by simpa using hc2
        subst hcc
        obtain ⟨a1, -, -, -⟩ := onTimer_some st inp r hr
        obtain ⟨b1, b2, -, b4⟩ := onTimer_some r.flightBatteryData inp2 r2 hr2
        exact ⟨_, _, a1, b1, b2, b4⟩
    | succ k =>
      have hp : rs2[k]? = some prev := by simpa using hprev
      have hc2 : rs2[k + 1]? = some cur := by simpa using hcur
      exact ih r.flightBatteryData rs2 k hrs2 hp hc2

theorem scanTrace_snd (fuel : ℕ) (v : F32) (c : ℕ) :
    (scanTrace fuel v c).2 = scanLoop fuel v c := by
  induction fuel generalizing c with
  | zero => rfl
  | succ fuel ih =>
    unfold scanTrace scanLoop
    cases charge_perc[c]? with
    | none => rfl
    | some t =>
      simp only
      by_cases hg : F32.gt v t = true
      · rw [if_pos hg, if_pos hg]
        exact ih (c + 1)
      · rw [if_neg hg, if_neg hg]

/-- A scan that stops at `k` has read exactly the indices from `charge` to `k`, in order. -/
theorem scanTrace_fst (fuel : ℕ) (v : F32) (c k : ℕ) (h : scanLoop fuel v c = some k) :
    (scanTrace fuel v c).1 = List.range' c (k + 1 - c) := by
  induction fuel generalizing c with
  | zero => simp [scanLoop] at h
  | succ fuel ih =>
    have hck : c ≤ k := (scanLoop_some _ _ _ _ h).1
    unfold scanLoop at h
    unfold scanTrace
    cases hc : charge_perc[c]? with
    | none => rw [hc] at h; exact Option.noConfusion h
    | some t =>
      rw [hc] at h
      simp only at h ⊢
      by_cases hg : F32.gt v t = true
      · rw [if_pos hg] at h
        rw [if_pos hg]
        have hck2 : c + 1 ≤ k := (scanLoop_some _ _ _ _ h).1
        show c :: (scanTrace fuel v (c + 1)).1 = _
        rw [ih (c + 1) h]
        have e : k + 1 - c = (k + 1 - (c + 1)) + 1 := by omega
        rw [e, List.range'_succ]
      · rw [if_neg hg] at h
        rw [if_neg hg]
        have hkc : c = k := Option.some.inj h
        subst hkc
        have e : c + 1 - c = 1 := by omega
        rw [e]
        rfl

/-- Two scans of the same voltage from the same index stop at the same index, whatever fuel
each was given. -/
theorem scanLoop_unique (f1 f2 : ℕ) (v : F32) (c i1 i2 : ℕ) (h1 : scanLoop f1 v c = some i1)
    (h2 : scanLoop f2 v c = some i2) : i1 = i2 := by
  obtain ⟨a1, ⟨t1, ht1, hs1⟩, hb1⟩ := scanLoop_some _ _ _ _ h1
  obtain ⟨a2, ⟨t2, ht2, hs2⟩, hb2⟩ := scanLoop_some _ _ _ _ h2
  rcases Nat.lt_trichotomy i1 i2 with hlt | heq | hgt
  · obtain ⟨u, hu, hgu⟩ := hb2 i1 a1 hlt
    rw [ht1] at hu
    have : t1 = u := Option.some.inj hu
    subst this
    rw [hs1] at hgu
    exact Bool.noConfusion hgu
  · exact heq
  · obtain ⟨u, hu, hgu⟩ := hb1 i2 a2 hgt
    rw [ht2] at hu
    have : t2 = u := Option.some.inj hu
    subst this
    rw [hs2] at hgu
    exact Bool.noConfusion hgu

/-- The body of `pmScanReads` with the two table reads resolved. -/
theorem pmScanReads_unfold (fuel : ℕ) (v : F32) :
    pmScanReads fuel v =
      if F32.lt v (F32.fin 3) then ([], some 0)
      else if F32.gt v (F32.fin (8598323 / 2097152)) then ([], some 9)
      else ((scanTrace fuel v 0).1,
        ((scanTrace fuel v 0).2).map (fun charge => (charge : ℤ))) := by
  unfold pmScanReads
  rw [charge_perc_first, charge_perc_last]

/-- With fuel for ten evaluations of the loop condition or more, the function with its reads
recorded returns what `pmBatteryChargeFromVoltage` returns; when the loop is entered it stops
at some `k` of 0..9 after reading the indices 0 to `k`. -/
theorem pmScanReads_spec (fuel : ℕ) (v : F32) (hf : 10 ≤ fuel) :
    (pmScanReads fuel v).2 = pmBatteryChargeFromVoltage v ∧
    ((pmScanReads fuel v).1 = [] ∨
      (F32.lt v (F32.fin 3) = false ∧ F32.gt v (F32.fin (8598323 / 2097152)) = false ∧
        ∃ k : ℕ, k ≤ 9 ∧ pmScanReads fuel v = (List.range (k + 1), some (k : ℤ)))) := by
  rw [pmScanReads_unfold, pm_unfold]
  by_cases h1 : F32.lt v (F32.fin 3) = true
  · rw [if_pos h1, if_pos h1]
    exact ⟨rfl, Or.inl rfl⟩
  rw [if_neg h1, if_neg h1]
  by_cases h2 : F32.gt v (F32.fin (8598323 / 2097152)) = true
  · rw [if_pos h2, if_pos h2]
    exact ⟨rfl, Or.inl rfl⟩
  rw [if_neg h2, if_neg h2]
  have h2f : F32.gt v (F32.fin (8598323 / 2097152)) = false := by simpa using h2
  obtain ⟨k, hk, hk9⟩ := scanLoop_total fuel v 0 9 _ charge_perc_last h2f (by omega) (by omega)
  obtain ⟨k2, hk2, -⟩ := scanLoop_total scanFuel v 0 9 _ charge_perc_last h2f (by omega)
    (by simp [scanFuel, charge_perc_length])
  have hkk : k = k2 := scanLoop_unique _ _ v 0 k k2 hk hk2
  subst hkk
  have hfst := scanTrace_fst fuel v 0 k hk
  have hsnd := scanTrace_snd fuel v 0
  rw [hsnd, hk, hk2, hfst]
  refine ⟨rfl, Or.inr ⟨by simpa using h1, h2f, k, hk9, ?_⟩⟩
  simp [List.range_eq_range']

theorem F32.le_of_lt_eq_false (a : F32) (b : ℚ) (ha : a ≠ F32.nan)
    (h : F32.lt a (F32.fin b) = false) : F32.le (F32.fin b) a = true := by
  rcases a with _ | s | a
  · exact absurd rfl ha
  · cases s
    · rfl
    · simp [F32.lt] at h
  · have hn : ¬ a < b := by simpa [F32.lt] using h
    simpa [F32.le] using not_lt.1 hn

theorem F32.le_of_gt_eq_false (a : F32) (b : ℚ) (ha : a ≠ F32.nan)
    (h : F32.gt a (F32.fin b) = false) : F32.le a (F32.fin b) = true := by
  rcases a with _ | s | a
  · exact absurd rfl ha
  · cases s
    · simp [F32.gt, F32.lt] at h
    · rfl
  · have hn : ¬ b < a := by simpa [F32.gt, F32.lt] using h
    simpa [F32.le] using not_lt.1 hn

/-! ## The claims -/

/-- C1, at a first tick with samples R = 1489, B = 1654: the voltage converted from the tick's
samples is 3.9989 V, whose bucket is 7, while the tick publishes the bucket of the retained
voltage 0, which is 0, and sets the alarm to ERROR. -/
theorem onTimer_bucket_of_retained_voltage :
    pmBatteryChargeFromVoltage (adcConvertToVoltageFloat 1654 1489) = some 7 ∧
    ∃ r d, onTimer (zeroInitialised ())
        { vrefPin := 1489, batPin := 1654, stored := zeroInitialised (), chargingState := 0 }
        = some r ∧
      r.stateSets = [d] ∧ d.EstimatedFlightTime = 0 ∧
      d.Voltage = adcConvertToVoltageFloat 1654 1489 ∧
      r.alarmSets = [(AlarmChannel.BATTERY, AlarmLevel.ERROR)] := by
  refine ⟨by rw [adcConvert_1654_1489]; exact pm_3_9989, ?_⟩
  refine ⟨_, _, onTimer_eq (zeroInitialised ()) _ 0 pm_zero, rfl, rfl, rfl, rfl⟩

/-- C2: in every tick the battery alarm is set exactly once, and the level is determined by the
bucket published in that tick as EstimatedFlightTime: ERROR for 0, WARNING for 1, OK for every
other bucket (2 to 9). -/
theorem onTimer_alarm_from_published_bucket {ρ : Type} (st : FlightBatteryStateData ρ)
    (inp : TickInputs ρ) :
    ∃ r d, onTimer st inp = some r ∧ r.stateSets = [d] ∧
      0 ≤ d.EstimatedFlightTime ∧ d.EstimatedFlightTime ≤ 9 ∧
      r.alarmSets =
        [(AlarmChannel.BATTERY,
          if d.EstimatedFlightTime = 0 then AlarmLevel.ERROR
          else if d.EstimatedFlightTime = 1 then AlarmLevel.WARNING
          else AlarmLevel.OK)] := by
  obtain ⟨c, hc, h0, h9⟩ := pm_total st.Voltage
  refine ⟨_, _, onTimer_eq st inp c hc, rfl, h0, h9, ?_⟩
  show [(AlarmChannel.BATTERY,
      if c = 1 then AlarmLevel.WARNING else if c = 0 then AlarmLevel.ERROR else AlarmLevel.OK)] =
    [(AlarmChannel.BATTERY,
      if c = 0 then AlarmLevel.ERROR else if c = 1 then AlarmLevel.WARNING else AlarmLevel.OK)]
  by_cases h1 : c = 1
  · subst h1
    rfl
  · by_cases hz : c = 0
    · subst hz
      rfl
    · rw [if_neg h1, if_neg hz, if_neg hz, if_neg h1]

/-- C3: for every voltage v with charge_perc[0] <= v <= charge_perc[9], the function returns
the smallest index i in 0..9 such that v <= charge_perc[i]. -/
theorem pmBatteryChargeFromVoltage_least_index (v c0 c9 : F32)
    (h0 : charge_perc[0]? = some c0) (h9 : charge_perc[9]? = some c9)
    (hlo : F32.le c0 v = true) (hhi : F32.le v c9 = true) :
    ∃ i : ℕ, pmBatteryChargeFromVoltage v = some (i : ℤ) ∧ i ≤ 9 ∧
      (∃ t, charge_perc[i]? = some t ∧ F32.le v t = true) ∧
      ∀ j, j < i → ∀ t, charge_perc[j]? = some t → F32.le v t = false := by
  rw [charge_perc_first] at h0
  rw [charge_perc_last] at h9
  have e0 : c0 = F32.fin 3 := by simpa using h0.symm
  have e9 : c9 = F32.fin (8598323 / 2097152) := by simpa using h9.symm
  subst e0 e9
  rcases v with _ | s | q
  · simp [F32.le] at hlo
  · cases s <;> simp [F32.le] at hlo hhi
  · exact pm_scan_least q (by simpa [F32.le] using hlo) (by simpa [F32.le] using hhi)

theorem pmBatteryChargeFromVoltage_least_index_witness :
    F32.le (F32.fin 3) (F32.fin (125 / 32)) = true ∧
    F32.le (F32.fin (125 / 32)) (F32.fin (8598323 / 2097152)) = true ∧
    ∃ i : ℕ, pmBatteryChargeFromVoltage (F32.fin (125 / 32)) = some (i : ℤ) ∧ i ≤ 9 ∧
      (∃ t, charge_perc[i]? = some t ∧ F32.le (F32.fin (125 / 32)) t = true) ∧
      ∀ j, j < i → ∀ t, charge_perc[j]? = some t → F32.le (F32.fin (125 / 32)) t = false :=
  have hlo : F32.le (F32.fin 3) (F32.fin (125 / 32)) = true := by
    simp only [F32.le, decide_eq_true_eq]; norm_num
  have hhi : F32.le (F32.fin (125 / 32)) (F32.fin (8598323 / 2097152)) = true := by
    simp only [F32.le, decide_eq_true_eq]; norm_num
  ⟨hlo, hhi, pmBatteryChargeFromVoltage_least_index (F32.fin (125 / 32)) (F32.fin 3)
    (F32.fin (8598323 / 2097152)) charge_perc_first charge_perc_last hlo hhi⟩

/-- C4: for every index i in 0..9, the function applied to charge_perc[i] returns i: a voltage
equal to a threshold falls in that threshold's bucket. -/
theorem pmBatteryChargeFromVoltage_at_threshold (i : ℕ) (t : F32)
    (hi : charge_perc[i]? = some t) : pmBatteryChargeFromVoltage t = some (i : ℤ) := by
  have hlt : i < 10 := by
    by_contra hcon
    rw [List.getElem?_eq_none (by rw [charge_perc_length]; omega)] at hi
    exact Option.noConfusion hi
  rw [charge_perc_eq] at hi
  interval_cases i <;> simp at hi <;> subst hi <;> rw [pm_unfold] <;>
    simp [scanLoop, scanFuel, charge_perc_eq, F32.lt, F32.gt] <;> norm_num

theorem pmBatteryChargeFromVoltage_at_threshold_witness :
    charge_perc[5]? = some (F32.round (392 / 100)) ∧
    pmBatteryChargeFromVoltage (F32.round (392 / 100)) = some 5 :=
  ⟨rfl, pmBatteryChargeFromVoltage_at_threshold 5 (F32.round (392 / 100)) rfl⟩

/-- C5: for every voltage v < 3.00 the function returns 0, and for every voltage v > 4.10 it
returns 9.  The upper threshold is taken both as the table entry (the float literal 4.10f) and
as the decimal 4.10. -/
theorem pmBatteryChargeFromVoltage_outside (v : F32) :
    (F32.lt v (F32.fin 3) = true → pmBatteryChargeFromVoltage v = some 0) ∧
    (F32.gt v (F32.round (410 / 100)) = true → pmBatteryChargeFromVoltage v = some 9) ∧
    (F32.gt v (F32.fin (410 / 100)) = true → pmBatteryChargeFromVoltage v = some 9) := by
  have h39 : F32.lt (F32.fin 3) (F32.fin (8598323 / 2097152)) = true := by
    simp only [F32.lt, decide_eq_true_eq]; norm_num
  have hlast : F32.round (410 / 100) = F32.fin (8598323 / 2097152) := by
    have h := charge_perc_last
    unfold charge_perc at h
    simpa using h
  have key : F32.gt v (F32.fin (8598323 / 2097152)) = true →
      pmBatteryChargeFromVoltage v = some 9 := by
    intro hg
    have hnot : F32.lt v (F32.fin 3) = false := by
      by_contra hcon
      have hl : F32.lt v (F32.fin 3) = true := by simpa using hcon
      have habs := F32.lt_lt_trans (F32.lt_lt_trans h39 hg) hl
      rw [F32.lt_irrefl] at habs
      exact Bool.noConfusion habs
    rw [pm_unfold, hnot, hg]
    rfl
  refine ⟨?_, ?_, ?_⟩
  · intro hl
    rw [pm_unfold, hl]
    rfl
  · rw [hlast]
    exact key
  · intro hg
    apply key
    have hstep : F32.lt (F32.fin (8598323 / 2097152)) (F32.fin (410 / 100)) = true := by
      simp only [F32.lt, decide_eq_true_eq]; norm_num
    exact F32.lt_lt_trans hstep hg

theorem pmBatteryChargeFromVoltage_outside_witness :
    (F32.lt (F32.fin (5 / 2)) (F32.fin 3) = true ∧
      pmBatteryChargeFromVoltage (F32.fin (5 / 2)) = some 0) ∧
    (F32.gt (F32.inf false) (F32.round (410 / 100)) = true ∧
      pmBatteryChargeFromVoltage (F32.inf false) = some 9) ∧
    (F32.gt (F32.fin (17 / 4)) (F32.fin (410 / 100)) = true ∧
      pmBatteryChargeFromVoltage (F32.fin (17 / 4)) = some 9) :=
  have h1 : F32.lt (F32.fin (5 / 2)) (F32.fin 3) = true := by
    simp only [F32.lt, decide_eq_true_eq]; norm_num
  have hlast : F32.round (410 / 100) = F32.fin (8598323 / 2097152) := by
    have h := charge_perc_last
    unfold charge_perc at h
    simpa using h
  have h2 : F32.gt (F32.inf false) (F32.round (410 / 100)) = true := by
    rw [hlast]; rfl
  have h3 : F32.gt (F32.fin (17 / 4)) (F32.fin (410 / 100)) = true := by
    simp only [F32.gt, F32.lt, decide_eq_true_eq]; norm_num
  ⟨⟨h1, (pmBatteryChargeFromVoltage_outside (F32.fin (5 / 2))).1 h1⟩,
   ⟨h2, (pmBatteryChargeFromVoltage_outside (F32.inf false)).2.1 h2⟩,
   ⟨h3, (pmBatteryChargeFromVoltage_outside (F32.fin (17 / 4))).2.2 h3⟩⟩

/-- C6: the function is monotonic non-decreasing: for all voltages v1 <= v2 the bucket of v1 is
at most the bucket of v2. -/
theorem pmBatteryChargeFromVoltage_monotone (v1 v2 : F32) (h : F32.le v1 v2 = true) :
    ∃ c1 c2 : ℤ, pmBatteryChargeFromVoltage v1 = some c1 ∧
      pmBatteryChargeFromVoltage v2 = some c2 ∧ c1 ≤ c2 := by
  obtain ⟨c2, hc2, hc2lo, hc2hi⟩ := pm_total v2
  by_cases ha : F32.lt v1 (F32.fin 3) = true
  · exact ⟨0, c2, by rw [pm_unfold, ha]; rfl, hc2, hc2lo⟩
  have hb : F32.lt v2 (F32.fin 3) = false := by
    by_contra hcon
    exact ha (F32.le_lt_trans h (by simpa using hcon))
  have ha2 : F32.lt v1 (F32.fin 3) = false := by simpa using ha
  by_cases hg1 : F32.gt v1 (F32.fin (8598323 / 2097152)) = true
  · have hg2 : F32.gt v2 (F32.fin (8598323 / 2097152)) = true := F32.lt_le_trans hg1 h
    exact ⟨9, 9, by rw [pm_unfold, ha2, hg1]; rfl, by rw [pm_unfold, hb, hg2]; rfl, le_refl _⟩
  have hg1f : F32.gt v1 (F32.fin (8598323 / 2097152)) = false := by simpa using hg1
  obtain ⟨i1, hi1, hle1⟩ := scanLoop_total scanFuel v1 0 9 _ charge_perc_last hg1f
    (by omega) (by simp [scanFuel, charge_perc_length])
  have hp1 : pmBatteryChargeFromVoltage v1 = some (i1 : ℤ) := by
    rw [pm_unfold, ha2, hg1f, hi1]; rfl
  by_cases hg2 : F32.gt v2 (F32.fin (8598323 / 2097152)) = true
  · exact ⟨i1, 9, hp1, by rw [pm_unfold, hb, hg2]; rfl, by exact_mod_cast hle1⟩
  have hg2f : F32.gt v2 (F32.fin (8598323 / 2097152)) = false := by simpa using hg2
  obtain ⟨i2, hi2, -⟩ := scanLoop_total scanFuel v2 0 9 _ charge_perc_last hg2f
    (by omega) (by simp [scanFuel, charge_perc_length])
  have hp2 : pmBatteryChargeFromVoltage v2 = some (i2 : ℤ) := by
    rw [pm_unfold, hb, hg2f, hi2]; rfl
  refine ⟨i1, i2, hp1, hp2, ?_⟩
  obtain ⟨-, -, hbelow⟩ := scanLoop_some _ _ _ _ hi1
  obtain ⟨-, ⟨t, ht, hstop⟩, -⟩ := scanLoop_some _ _ _ _ hi2
  by_contra hcon
  have hlt : i2 < i1 := by
    have : ¬ ((i1 : ℤ) ≤ (i2 : ℤ)) := hcon
    omega
  obtain ⟨u, hu, hgu⟩ := hbelow i2 (Nat.zero_le _) hlt
  rw [ht] at hu
  have hut : t = u := by simpa using hu
  subst hut
  have : F32.gt v2 t = true := F32.lt_le_trans hgu h
  rw [hstop] at this
  exact Bool.noConfusion this

theorem pmBatteryChargeFromVoltage_monotone_witness :
    F32.le (F32.fin (7 / 2)) (F32.fin (125 / 32)) = true ∧
    ∃ c1 c2 : ℤ, pmBatteryChargeFromVoltage (F32.fin (7 / 2)) = some c1 ∧
      pmBatteryChargeFromVoltage (F32.fin (125 / 32)) = some c2 ∧ c1 ≤ c2 :=
  have h : F32.le (F32.fin (7 / 2)) (F32.fin (125 / 32)) = true := by
    simp only [F32.le, decide_eq_true_eq]; norm_num
  ⟨h, pmBatteryChargeFromVoltage_monotone (F32.fin (7 / 2)) (F32.fin (125 / 32)) h⟩

/-- C7: for every input voltage (NaN and the infinities included) the function returns an
integer in the range 0 to 9 inclusive. -/
theorem pmBatteryChargeFromVoltage_range (v : F32) :
    ∃ c : ℤ, pmBatteryChargeFromVoltage v = some c ∧ 0 ≤ c ∧ c ≤ 9 :=
  pm_total v

/-- C8 as stated fails: for R = 4096, B = 2048 the float result is 1.80000007..., not the exact
value 3.6 * 2048 / 4096 = 1.8 (which no binary32 value equals). -/
theorem adcConvertToVoltageFloat_not_exact :
    adcConvertToVoltageFloat 2048 4096 ≠ F32.fin (36 / 10 * (2048 : ℚ) / (4096 : ℚ)) := by
  rw [adcConvert_2048_4096]
  intro h
  have hq : (15099495 / 8388608 : ℚ) = 36 / 10 * (2048 : ℚ) / (4096 : ℚ) := F32.fin.inj h
  norm_num at hq

/-- C8, amended: for every battery_raw B and every reference_raw R != 0 (both unsigned 16-bit)
the result is the float evaluation of (B / (R / 1.20f)) * 3.0f with real-valued (non-integer)
divisions: a finite value within relative error 2^-22 of 3.6 * B / R; for R = 4096, B = 2048
it is 15099495 / 2^23 = 1.80000007.... -/
theorem adcConvertToVoltageFloat_near (B R : ℕ) (hB : B < 2 ^ 16) (hR : R < 2 ^ 16)
    (hR0 : R ≠ 0) :
    (∃ q : ℚ, adcConvertToVoltageFloat B R = F32.fin q ∧
      |q - 36 / 10 * (B : ℚ) / (R : ℚ)| ≤ 36 / 10 * (B : ℚ) / (R : ℚ) / 2 ^ 22) ∧
    adcConvertToVoltageFloat 2048 4096 = F32.fin (15099495 / 8388608) :=
  ⟨adcConvert_near B R hB hR hR0, adcConvert_2048_4096⟩

theorem adcConvertToVoltageFloat_near_witness :
    (2048 : ℕ) < 2 ^ 16 ∧ (4096 : ℕ) < 2 ^ 16 ∧ (4096 : ℕ) ≠ 0 ∧
    (∃ q : ℚ, adcConvertToVoltageFloat 2048 4096 = F32.fin q ∧
      |q - 36 / 10 * ((2048 : ℕ) : ℚ) / ((4096 : ℕ) : ℚ)| ≤
        36 / 10 * ((2048 : ℕ) : ℚ) / ((4096 : ℕ) : ℚ) / 2 ^ 22) ∧
    adcConvertToVoltageFloat 2048 4096 = F32.fin (15099495 / 8388608) :=
  ⟨by norm_num, by norm_num, by norm_num,
    adcConvertToVoltageFloat_near 2048 4096 (by norm_num) (by norm_num) (by norm_num)⟩

/-- C9 as stated fails: a tick that reads reference_raw = 0 and battery_raw = 1654 after a tick
that published 3.90625 V publishes the voltage +Infinity, not the previous voltage. -/
theorem onTimer_vref_zero_publishes_infinity :
    ∃ r d, onTimer
        ({ Voltage := F32.fin (125 / 32), Current := F32.fin 0, EstimatedFlightTime := 5,
           rest := () } : FlightBatteryStateData Unit)
        { vrefPin := 0, batPin := 1654,
          stored := { Voltage := F32.fin (125 / 32), Current := F32.fin 0,
                      EstimatedFlightTime := 5, rest := () },
          chargingState := 0 } = some r ∧
      r.stateSets = [d] ∧ d.Voltage = F32.inf false ∧ d.Voltage ≠ F32.fin (125 / 32) := by
  obtain ⟨c, hc, -, -⟩ := pm_total (F32.fin (125 / 32))
  refine ⟨_, _, onTimer_eq _ _ c hc, rfl, ?_, ?_⟩
  · show adcConvertToVoltageFloat (toUInt16 1654) (toUInt16 0) = F32.inf false
    have h1 : toUInt16 1654 = 1654 := by norm_num [toUInt16]
    have h2 : toUInt16 0 = 0 := by norm_num [toUInt16]
    rw [h1, h2, adcConvert_vref_zero 1654 (by norm_num), if_neg (by norm_num)]
  · show adcConvertToVoltageFloat (toUInt16 1654) (toUInt16 0) ≠ F32.fin (125 / 32)
    have h1 : toUInt16 1654 = 1654 := by norm_num [toUInt16]
    have h2 : toUInt16 0 = 0 := by norm_num [toUInt16]
    rw [h1, h2, adcConvert_vref_zero 1654 (by norm_num), if_neg (by norm_num)]
    exact fun h => F32.noConfusion h

/-- C9, amended: a tick that reads reference_raw = 0 has no invalid-reading path; it publishes,
as every tick does, the converted voltage, which is +Infinity when battery_raw is not 0 and NaN
when battery_raw is 0, whatever voltage was published before. -/
theorem onTimer_vref_zero {ρ : Type} (st : FlightBatteryStateData ρ) (inp : TickInputs ρ)
    (h : toUInt16 inp.vrefPin = 0) :
    ∃ r d, onTimer st inp = some r ∧ r.stateSets = [d] ∧
      d.Voltage = if toUInt16 inp.batPin = 0 then F32.nan else F32.inf false := by
  obtain ⟨c, hc, -, -⟩ := pm_total st.Voltage
  refine ⟨_, _, onTimer_eq st inp c hc, rfl, ?_⟩
  show adcConvertToVoltageFloat (toUInt16 inp.batPin) (toUInt16 inp.vrefPin) = _
  rw [h, adcConvert_vref_zero _ (toUInt16_lt _)]

theorem onTimer_vref_zero_witness :
    toUInt16 0 = 0 ∧
    ∃ r d, onTimer (zeroInitialised ())
        { vrefPin := 0, batPin := 0, stored := zeroInitialised (), chargingState := 1 }
        = some r ∧ r.stateSets = [d] ∧
      d.Voltage = if toUInt16 0 = 0 then F32.nan else F32.inf false :=
  ⟨rfl, onTimer_vref_zero (zeroInitialised ())
    { vrefPin := 0, batPin := 0, stored := zeroInitialised (), chargingState := 1 } rfl⟩

/-- C10: for every tick with reference_raw != 0, the published record has Voltage equal to the
conversion of that tick's samples (a finite value) and Current equal to the charging-state code
the driver reports in that tick (converted to float, which is exact for a code below 2^24). -/
theorem onTimer_publishes_voltage_and_current {ρ : Type} (st : FlightBatteryStateData ρ)
    (inp : TickInputs ρ) (h : toUInt16 inp.vrefPin ≠ 0) :
    ∃ r d, onTimer st inp = some r ∧ r.stateSets = [d] ∧
      d.Voltage = adcConvertToVoltageFloat (toUInt16 inp.batPin) (toUInt16 inp.vrefPin) ∧
      (∃ q : ℚ, d.Voltage = F32.fin q) ∧
      d.Current = F32.ofNat inp.chargingState ∧
      (inp.chargingState < 2 ^ 24 → d.Current = F32.fin (inp.chargingState : ℚ)) := by
  obtain ⟨c, hc, -, -⟩ := pm_total st.Voltage
  obtain ⟨q, hq, -⟩ := adcConvert_near (toUInt16 inp.batPin) (toUInt16 inp.vrefPin)
    (toUInt16_lt16 _) (toUInt16_lt16 _) h
  refine ⟨_, _, onTimer_eq st inp c hc, rfl, rfl, ⟨q, hq⟩, rfl, ?_⟩
  intro hlt
  exact F32.round_natCast _ hlt

theorem onTimer_publishes_voltage_and_current_witness :
    toUInt16 1489 ≠ 0 ∧ (2 : ℕ) < 2 ^ 24 ∧
    ∃ r d, onTimer (zeroInitialised ())
        { vrefPin := 1489, batPin := 1654, stored := zeroInitialised (), chargingState := 2 }
        = some r ∧ r.stateSets = [d] ∧
      d.Voltage = adcConvertToVoltageFloat (toUInt16 1654) (toUInt16 1489) ∧
      (∃ q : ℚ, d.Voltage = F32.fin q) ∧
      d.Current = F32.ofNat 2 ∧
      ((2 : ℕ) < 2 ^ 24 → d.Current = F32.fin ((2 : ℕ) : ℚ)) :=
  ⟨by norm_num [toUInt16], by norm_num,
    onTimer_publishes_voltage_and_current (zeroInitialised ())
      { vrefPin := 1489, batPin := 1654, stored := zeroInitialised (), chargingState := 2 }
      (by norm_num [toUInt16])⟩

/-- C11: for every tick, every field of the snapshot fetched from the store other than Voltage,
Current and EstimatedFlightTime has the same value in the snapshot written back. -/
theorem onTimer_keeps_other_fields {ρ : Type} (st : FlightBatteryStateData ρ)
    (inp : TickInputs ρ) :
    ∃ r d, onTimer st inp = some r ∧ r.stateSets = [d] ∧ d.rest = inp.stored.rest := by
  obtain ⟨c, hc, -, -⟩ := pm_total st.Voltage
  exact ⟨_, _, onTimer_eq st inp c hc, rfl, rfl⟩

/-- C12 as stated fails: from no retained record does a tick with reference_raw = 4096 and
battery_raw = 3000 both publish the bucket of the converted voltage and set the alarm to OK. -/
theorem onTimer_3000_4096_not_OK :
    ¬ ∃ (st stored : FlightBatteryStateData Unit) (code : ℕ) (r : TickResult Unit)
        (d : FlightBatteryStateData Unit),
      onTimer st { vrefPin := 4096, batPin := 3000, stored := stored, chargingState := code }
        = some r ∧
      r.stateSets = [d] ∧
      pmBatteryChargeFromVoltage d.Voltage = some d.EstimatedFlightTime ∧
      r.alarmSets = [(AlarmChannel.BATTERY, AlarmLevel.OK)] := by
  rintro ⟨st, stored, code, r, d, hr, hs, hp, ha⟩
  obtain ⟨h1, -, h3, h4⟩ := onTimer_some st _ r hr
  rw [h1] at hs
  have hd : r.flightBatteryData = d := by simpa using hs
  subst hd
  have hv : r.flightBatteryData.Voltage = F32.fin (675 / 256) := by
    rw [h3]
    have e1 : toUInt16 3000 = 3000 := by norm_num [toUInt16]
    have e2 : toUInt16 4096 = 4096 := by norm_num [toUInt16]
    show adcConvertToVoltageFloat (toUInt16 3000) (toUInt16 4096) = _
    rw [e1, e2, adcConvert_3000_4096]
  rw [hv, pm_2_6367] at hp
  have h0 : r.flightBatteryData.EstimatedFlightTime = 0 := (Option.some.inj hp).symm
  rw [h4, h0] at ha
  simp at ha

/-- C12, amended: for a tick with reference_raw = 4096 and battery_raw = 3000 the converted and
published voltage is 2.63671875 V (2.637 to three decimals), the bucket of that voltage is 0,
and whenever 0 is the bucket the tick publishes, the battery alarm is set to ERROR. -/
theorem onTimer_3000_4096 {ρ : Type} (st stored : FlightBatteryStateData ρ) (code : ℕ) :
    ∃ r d,
      onTimer st { vrefPin := 4096, batPin := 3000, stored := stored, chargingState := code }
        = some r ∧
      r.stateSets = [d] ∧ d.Voltage = F32.fin (675 / 256) ∧
      ((26365 / 10000 : ℚ) ≤ 675 / 256 ∧ (675 / 256 : ℚ) < 26375 / 10000) ∧
      pmBatteryChargeFromVoltage d.Voltage = some 0 ∧
      (d.EstimatedFlightTime = 0 →
        r.alarmSets = [(AlarmChannel.BATTERY, AlarmLevel.ERROR)]) := by
  obtain ⟨c, hc, -, -⟩ := pm_total st.Voltage
  have hr := onTimer_eq st
    { vrefPin := 4096, batPin := 3000, stored := stored, chargingState := code } c hc
  obtain ⟨h1, -, h3, h4⟩ := onTimer_some st _ _ hr
  have e1 : toUInt16 3000 = 3000 := by norm_num [toUInt16]
  have e2 : toUInt16 4096 = 4096 := by norm_num [toUInt16]
  have hv : adcConvertToVoltageFloat (toUInt16 3000) (toUInt16 4096) = F32.fin (675 / 256) := by
    rw [e1, e2, adcConvert_3000_4096]
  refine ⟨_, _, hr, rfl, hv, ⟨by norm_num, by norm_num⟩, ?_, ?_⟩
  · show pmBatteryChargeFromVoltage
      (adcConvertToVoltageFloat (toUInt16 3000) (toUInt16 4096)) = some 0
    rw [hv]
    exact pm_2_6367
  · intro h0
    rw [h4]
    show [(AlarmChannel.BATTERY,
        if c = 0 then AlarmLevel.ERROR else if c = 1 then AlarmLevel.WARNING
        else AlarmLevel.OK)] = _
    have hc0 : c = 0 := h0
    rw [if_pos hc0]

theorem onTimer_3000_4096_witness :
    ∃ r d,
      onTimer (zeroInitialised ())
        { vrefPin := 4096, batPin := 3000, stored := zeroInitialised (), chargingState := 0 }
        = some r ∧
      r.stateSets = [d] ∧ d.EstimatedFlightTime = 0 ∧
      r.alarmSets = [(AlarmChannel.BATTERY, AlarmLevel.ERROR)] := by
  obtain ⟨r, d, hr, hs, -, -, -, himp⟩ :=
    onTimer_3000_4096 (zeroInitialised ()) (zeroInitialised ()) 0
  obtain ⟨h1, h2, -, -⟩ := onTimer_some _ _ r hr
  rw [h1] at hs
  have hd : r.flightBatteryData = d := by simpa using hs
  subst hd
  have h0 : r.flightBatteryData.EstimatedFlightTime = 0 := by
    have hz : pmBatteryChargeFromVoltage (zeroInitialised ()).Voltage = some 0 := pm_zero
    rw [hz] at h2
    exact (Option.some.inj h2).symm
  exact ⟨r, r.flightBatteryData, hr, h1, h0, himp h0⟩

/-- C13, at a failure of the state-record registration: `PowerManagerInitialize` returns 0, as it
does for every outcome of its two calls, where its own comment promises -1. -/
theorem PowerManagerInitialize_returns_zero_on_failure :
    PowerManagerInitialize 1 (-1) 0 =
      some { calls := [InitCall.FlightBatteryStateInitialize,
                       InitCall.EventPeriodicCallbackCreate 500],
             ret := 0 } ∧
    ∀ (tick : ℕ) (a b : ℤ) (r : InitResult), PowerManagerInitialize tick a b = some r →
      r.ret = 0 := by
  refine ⟨by decide, ?_⟩
  intro tick a b r h
  unfold PowerManagerInitialize at h
  by_cases ht : tick = 0
  · rw [if_pos ht] at h
    exact Option.noConfusion h
  · rw [if_neg ht] at h
    have hr := Option.some.inj h
    rw [← hr]

/-- C14 as stated fails: when the driver command fails (outcome -1) `PowerManagerStart` still
returns 0, the success value. -/
theorem PowerManagerStart_ignores_failure : (PowerManagerStart (-1)).ret = 0 := rfl

/-- C14, amended: `PowerManagerStart` issues exactly one command to the charging driver,
selecting the 500 mA charge mode, and returns 0 whatever the outcome of that command. -/
theorem PowerManagerStart_one_command (outcome : ℤ) :
    (PowerManagerStart outcome).setChargeState = [ChargeMode.CHARGE_500MA] ∧
    (PowerManagerStart outcome).ret = 0 :=
  ⟨rfl, rfl⟩

/-- C15: the table has exactly 10 entries and is strictly increasing: for all indices
0 <= i < j <= 9, charge_perc[i] < charge_perc[j]; charge_perc[0] is 3.00 and charge_perc[9] is
the float literal 4.10f, the binary32 value nearest 4.10. -/
theorem charge_perc_strictly_increasing :
    charge_perc.length = 10 ∧
    (∀ i j a b, i < j → j ≤ 9 → charge_perc[i]? = some a → charge_perc[j]? = some b →
      F32.lt a b = true) ∧
    charge_perc[0]? = some (F32.fin 3) ∧
    charge_perc[9]? = some (F32.round (410 / 100)) ∧
    F32.round (410 / 100) = F32.fin (8598323 / 2097152) ∧
    |(8598323 / 2097152 : ℚ) - 410 / 100| ≤ 1 / 10000000 := by
  refine ⟨charge_perc_length, ?_, charge_perc_first, rfl, ?_, ?_⟩
  · intro i j a b hij _ ha hb
    exact charge_perc_strict i j a b hij ha hb
  · have h := charge_perc_last
    unfold charge_perc at h
    simpa using h
  · rw [abs_le]
    constructor <;> norm_num

theorem charge_perc_strictly_increasing_witness :
    (3 : ℕ) < 7 ∧ (7 : ℕ) ≤ 9 ∧
    charge_perc[3]? = some (F32.round (387 / 100)) ∧
    charge_perc[7]? = some (F32.round (400 / 100)) ∧
    F32.lt (F32.round (387 / 100)) (F32.round (400 / 100)) = true :=
  ⟨by norm_num, by norm_num, rfl, rfl,
    charge_perc_strictly_increasing.2.1 3 7 _ _ (by norm_num) (by norm_num) rfl rfl⟩

/-- C16: in every sequence of ticks, every tick after the first publishes as EstimatedFlightTime
(and derives its alarm from) the bucket of the Voltage the tick before it published; the bucket
and the alarm do not depend on the tick's own samples or on the snapshot it fetches: two ticks
from the same retained record publish the same bucket and set the same alarm. -/
theorem onTimer_bucket_of_previous_tick {ρ : Type} (st : FlightBatteryStateData ρ)
    (inputs : List (TickInputs ρ)) :
    (∃ rs, runTicks st inputs = some rs ∧ rs.length = inputs.length ∧
      ∀ k prev cur, rs[k]? = some prev → rs[k + 1]? = some cur →
        ∃ dprev dcur, prev.stateSets = [dprev] ∧ cur.stateSets = [dcur] ∧
          pmBatteryChargeFromVoltage dprev.Voltage = some dcur.EstimatedFlightTime ∧
          cur.alarmSets =
            [(AlarmChannel.BATTERY,
              if dcur.EstimatedFlightTime = 0 then AlarmLevel.ERROR
              else if dcur.EstimatedFlightTime = 1 then AlarmLevel.WARNING
              else AlarmLevel.OK)]) ∧
    (∀ inpA inpB : TickInputs ρ, ∃ rA rB dA dB,
      onTimer st inpA = some rA ∧ onTimer st inpB = some rB ∧
      rA.stateSets = [dA] ∧ rB.stateSets = [dB] ∧
      dA.EstimatedFlightTime = dB.EstimatedFlightTime ∧ rA.alarmSets = rB.alarmSets) := by
  constructor
  · obtain ⟨rs, hrs, hlen⟩ := runTicks_total st inputs
    refine ⟨rs, hrs, hlen, ?_⟩
    intro k prev cur hprev hcur
    exact runTicks_adjacent st inputs rs k prev cur hrs hprev hcur
  · intro inpA inpB
    obtain ⟨c, hc, -, -⟩ := pm_total st.Voltage
    exact ⟨_, _, _, _, onTimer_eq st inpA c hc, onTimer_eq st inpB c hc, rfl, rfl, rfl, rfl⟩

theorem onTimer_bucket_of_previous_tick_witness :
    ∃ rs prev cur dprev dcur,
      runTicks (zeroInitialised ())
        [{ vrefPin := 1489, batPin := 1654, stored := zeroInitialised (), chargingState := 0 },
         { vrefPin := 4096, batPin := 3000, stored := zeroInitialised (), chargingState := 0 }]
        = some rs ∧
      rs[0]? = some prev ∧ rs[1]? = some cur ∧
      prev.stateSets = [dprev] ∧ cur.stateSets = [dcur] ∧
      pmBatteryChargeFromVoltage dprev.Voltage = some dcur.EstimatedFlightTime ∧
      dcur.EstimatedFlightTime = 7 ∧
      cur.alarmSets = [(AlarmChannel.BATTERY, AlarmLevel.OK)] := by
  obtain ⟨⟨rs, hrs, hlen, hadj⟩, -⟩ := onTimer_bucket_of_previous_tick (zeroInitialised ())
    [{ vrefPin := 1489, batPin := 1654, stored := zeroInitialised (), chargingState := 0 },
     { vrefPin := 4096, batPin := 3000, stored := zeroInitialised (), chargingState := 0 }]
  obtain ⟨r1, rs2, hr1, -, hcons⟩ := runTicks_cons _ _ _ rs hrs
  have h0 : 0 < rs.length := by rw [hlen]; simp
  have h1 : 1 < rs.length := by rw [hlen]; simp
  have hp : rs[0]? = some r1 := by rw [hcons]; simp
  obtain ⟨dprev, dcur, a, b, c, d⟩ :=
    hadj 0 r1 rs[1] hp (List.getElem?_eq_getElem h1)
  obtain ⟨e1, -, e3, -⟩ := onTimer_some _ _ r1 hr1
  rw [e1] at a
  have hd : r1.flightBatteryData = dprev := by simpa using a
  have hv : dprev.Voltage = F32.fin (8386355 / 2097152) := by
    rw [← hd, e3]
    have u1 : toUInt16 1654 = 1654 := by norm_num [toUInt16]
    have u2 : toUInt16 1489 = 1489 := by norm_num [toUInt16]
    show adcConvertToVoltageFloat (toUInt16 1654) (toUInt16 1489) = _
    rw [u1, u2, adcConvert_1654_1489]
  have h7 : dcur.EstimatedFlightTime = 7 := by
    rw [hv, pm_3_9989] at c
    exact (Option.some.inj c).symm
  refine ⟨rs, r1, rs[1], dprev, dcur, hrs, hp, List.getElem?_eq_getElem h1, ?_, b, ?_, h7, ?_⟩
  · rw [e1, hd]
  · rw [hv, pm_3_9989, h7]
  · rw [d, h7]
    rfl

/-- C17: on the first tick, with the retained record zero-initialised (Voltage = 0), the tick
publishes EstimatedFlightTime = 0 and sets the battery alarm to ERROR, for every pair of ADC
samples and every snapshot held by the store. -/
theorem onTimer_first_tick {ρ : Type} (st : FlightBatteryStateData ρ) (inp : TickInputs ρ)
    (h : st.Voltage = F32.fin 0) :
    ∃ r d, onTimer st inp = some r ∧ r.stateSets = [d] ∧ d.EstimatedFlightTime = 0 ∧
      r.alarmSets = [(AlarmChannel.BATTERY, AlarmLevel.ERROR)] := by
  have hc : pmBatteryChargeFromVoltage st.Voltage = some 0 := by rw [h]; exact pm_zero
  exact ⟨_, _, onTimer_eq st inp 0 hc, rfl, rfl, rfl⟩

theorem onTimer_first_tick_witness :
    (zeroInitialised ()).Voltage = F32.fin 0 ∧
    ∃ r d, onTimer (zeroInitialised ())
        { vrefPin := 1489, batPin := 1654,
          stored := { Voltage := F32.fin 4, Current := F32.fin 1, EstimatedFlightTime := 7,
                      rest := () },
          chargingState := 1 } = some r ∧
      r.stateSets = [d] ∧ d.EstimatedFlightTime = 0 ∧
      r.alarmSets = [(AlarmChannel.BATTERY, AlarmLevel.ERROR)] :=
  ⟨rfl, onTimer_first_tick (zeroInitialised ()) _ rfl⟩

/-- C18 as stated fails in its reason: for a NaN voltage both range tests are false, so the scan
is entered and reads charge_perc[0], although charge_perc[0] <= NaN does not hold. -/
theorem pmScanReads_nan :
    (pmScanReads scanFuel F32.nan).1 = [0] ∧
    charge_perc[0]? = some (F32.fin 3) ∧
    F32.le (F32.fin 3) F32.nan = false := by
  refine ⟨?_, charge_perc_first, rfl⟩
  rw [pmScanReads_unfold]
  have h1 : F32.lt F32.nan (F32.fin 3) = false := rfl
  have h2 : F32.gt F32.nan (F32.fin (8598323 / 2097152)) = false := rfl
  rw [h1, h2]
  show (scanTrace (charge_perc.length + 1) F32.nan 0).1 = [0]
  rw [charge_perc_length]
  unfold scanTrace
  rw [charge_perc_first]
  rfl

/-- C18, amended: for every input voltage the scan stops after at most 9 increments and every
read charge_perc[charge] it performs uses an index in 0..9, because the scan is entered only
when neither voltage < charge_perc[0] nor voltage > charge_perc[9] holds: for a voltage that is
not NaN this is charge_perc[0] <= voltage <= charge_perc[9], and for NaN the first loop test is
false.  The final `charge` is the number of increments; `fuel` is any supply of ten loop tests
or more. -/
theorem pmScanReads_in_bounds (v c0 c9 : F32) (fuel : ℕ) (hf : 10 ≤ fuel)
    (h0 : charge_perc[0]? = some c0) (h9 : charge_perc[9]? = some c9) :
    ∃ k : ℕ, k ≤ 9 ∧
      ((pmScanReads fuel v).1 = [] ∨
        pmScanReads fuel v = (List.range (k + 1), some (k : ℤ))) ∧
      (∀ i ∈ (pmScanReads fuel v).1, i ≤ 9) ∧
      (pmScanReads fuel v).2 = pmBatteryChargeFromVoltage v ∧
      ((pmScanReads fuel v).1 ≠ [] →
        F32.lt v c0 = false ∧ F32.gt v c9 = false ∧
        (v ≠ F32.nan → F32.le c0 v = true ∧ F32.le v c9 = true) ∧
        (v = F32.nan → pmScanReads fuel v = ([0], some 0))) := by
  rw [charge_perc_first] at h0
  rw [charge_perc_last] at h9
  have e0 : c0 = F32.fin 3 := (Option.some.inj h0).symm
  have e9 : c9 = F32.fin (8598323 / 2097152) := (Option.some.inj h9).symm
  subst e0 e9
  obtain ⟨hres, hcase⟩ := pmScanReads_spec fuel v hf
  rcases hcase with hnil | ⟨hl, hg, k, hk9, hk⟩
  · refine ⟨0, by omega, Or.inl hnil, ?_, hres, ?_⟩
    · intro i hi
      rw [hnil] at hi
      simp at hi
    · intro hne
      exact absurd hnil hne
  · refine ⟨k, hk9, Or.inr hk, ?_, hres, ?_⟩
    · intro i hi
      rw [hk] at hi
      have : i < k + 1 := by simpa using hi
      omega
    · intro _
      refine ⟨hl, hg, ?_, ?_⟩
      · intro hv
        exact ⟨F32.le_of_lt_eq_false v _ hv hl, F32.le_of_gt_eq_false v _ hv hg⟩
      · intro hv
        subst hv
        have hscan : scanLoop fuel F32.nan 0 = some 0 := by
          obtain ⟨m, hm⟩ : ∃ m, fuel = m + 1 := ⟨fuel - 1, by omega⟩
          subst hm
          unfold scanLoop
          rw [charge_perc_first]
          rfl
        rw [pmScanReads_unfold]
        have h1 : F32.lt F32.nan (F32.fin 3) = false := rfl
        have h2 : F32.gt F32.nan (F32.fin (8598323 / 2097152)) = false := rfl
        rw [h1, h2, scanTrace_snd, scanTrace_fst fuel F32.nan 0 0 hscan, hscan]
        rfl

theorem pmScanReads_in_bounds_witness :
    (10 : ℕ) ≤ 10 ∧ charge_perc[0]? = some (F32.round (300 / 100)) ∧
    charge_perc[9]? = some (F32.round (410 / 100)) ∧
    ∃ k : ℕ, k ≤ 9 ∧
      ((pmScanReads 10 (F32.fin (125 / 32))).1 = [] ∨
        pmScanReads 10 (F32.fin (125 / 32)) = (List.range (k + 1), some (k : ℤ))) ∧
      (∀ i ∈ (pmScanReads 10 (F32.fin (125 / 32))).1, i ≤ 9) ∧
      (pmScanReads 10 (F32.fin (125 / 32))).2 = pmBatteryChargeFromVoltage (F32.fin (125 / 32)) ∧
      ((pmScanReads 10 (F32.fin (125 / 32))).1 ≠ [] →
        F32.lt (F32.fin (125 / 32)) (F32.round (300 / 100)) = false ∧
        F32.gt (F32.fin (125 / 32)) (F32.round (410 / 100)) = false ∧
        (F32.fin (125 / 32) ≠ F32.nan →
          F32.le (F32.round (300 / 100)) (F32.fin (125 / 32)) = true ∧
          F32.le (F32.fin (125 / 32)) (F32.round (410 / 100)) = true) ∧
        (F32.fin (125 / 32) = F32.nan →
          pmScanReads 10 (F32.fin (125 / 32)) = ([0], some 0))) :=
  ⟨le_refl _, rfl, rfl,
    pmScanReads_in_bounds (F32.fin (125 / 32)) _ _ 10 (le_refl _) rfl rfl⟩

end PowerManager
